import Mathlib

/-!
Verification of the computational core of the exploreLyon repository.

The embedded code:
* `convex_hull_xy` (src/utils/map.py): Andrew's monotone chain convex hull over
  exact coordinates.  Python floats compare and combine exactly in the source
  (no epsilon), so coordinates are modelled over an arbitrary linearly ordered
  commutative ring `R`; every finite float value embeds into such a ring and
  all comparisons agree.  Python's `sorted(set(points_xy))` — the ascending
  lexicographic enumeration of the distinct points — is modelled by an
  insertion sort over `List.dedup` (`sortPts`), and the result is
  characterised below as the unique sorted duplicate-free enumeration.
* `get_cluster_top_tags` (src/utils/tag.py): per-cluster top-N tag counting
  with `Counter.most_common` semantics (sort by decreasing count, ties kept in
  first-encounter order), modelled over association lists of rows.
-/

section Geometry

variable {R : Type} [LinearOrderedCommRing R]

/-- The two dimensional cross product of `a - o` and `b - o`; transcribes the
inner function `cross` of `convex_hull_xy`. -/
def cross (o a b : R × R) : R :=
  (a.1 - o.1) * (b.2 - o.2) - (a.2 - o.2) * (b.1 - o.1)

/-- Lexicographic strict order on coordinate pairs, as used by Python tuple
comparison in `sorted`. -/
def ptLT (p q : R × R) : Prop :=
  p.1 < q.1 ∨ (p.1 = q.1 ∧ p.2 < q.2)

/-- Lexicographic order on coordinate pairs (non-strict). -/
def ptLE (p q : R × R) : Prop :=
  p.1 < q.1 ∨ (p.1 = q.1 ∧ p.2 ≤ q.2)

instance : DecidableRel (ptLT (R := R)) := fun p q => by
  unfold ptLT; infer_instance

instance : DecidableRel (ptLE (R := R)) := fun p q => by
  unfold ptLE; infer_instance

/-- `sortPts` models `sorted(set(points_xy))`: the distinct points of the
input in ascending lexicographic order (a sort over `dedup`; characterised
below as the unique `ptLE`-sorted duplicate-free enumeration of the input's
points, which is exactly what `sorted(set(...))` returns). -/
def sortPts (l : List (R × R)) : List (R × R) :=
  l.dedup.insertionSort ptLE

/-- The `while len(ch) >= 2 and cross(ch[-2], ch[-1], p) <= 0: ch.pop()` loop
of `convex_hull_xy`.  The stack is kept top-first (head = `ch[-1]`). -/
def popWhile (p : R × R) : List (R × R) → List (R × R)
  | [] => []
  | [t] => [t]
  | t1 :: t2 :: rest =>
    if cross t2 t1 p ≤ 0 then popWhile p (t2 :: rest) else t1 :: t2 :: rest

/-- One iteration of the chain-building `for` loop: pop non-left turns, then
append `p`. -/
def chainStep (st : List (R × R)) (p : R × R) : List (R × R) :=
  p :: popWhile p st

/-- The chain stack left after folding the whole point list (top-first). -/
def lowerRev (pts : List (R × R)) : List (R × R) :=
  pts.foldl chainStep []

/-- The constructed chain in traversal order (`lower` resp. `upper` in the
source, depending on the order of `pts`). -/
def buildChain (pts : List (R × R)) : List (R × R) :=
  (lowerRev pts).reverse

/-- Transcription of `convex_hull_xy` from src/utils/map.py: sort the distinct
points, return `[]` below 3 of them, otherwise build the lower chain over the
ascending points and the upper chain over the descending points and
concatenate both without their final elements (`lower[:-1] + upper[:-1]`). -/
def convex_hull_xy (points_xy : List (R × R)) : List (R × R) :=
  let pts := sortPts points_xy
  if pts.length < 3 then []
  else (buildChain pts).dropLast ++ (buildChain pts.reverse).dropLast

/-- Error-aware transcription of the chain loop: the list index accesses
`ch[-1]` and `ch[-2]` are modelled as fallible lookups guarded only by the
same `len(ch) >= 2` short-circuit test as in the source, a failed lookup
returning the exception value; `ch.pop()` (which in Python fails only on an
empty list, impossible under the same guard) is removal of the top element. -/
def popWhileE (p : R × R) (st : List (R × R)) : Except String (List (R × R)) :=
  if h : 2 ≤ st.length then
    match st.get? 0, st.get? 1 with
    | some t1, some t2 =>
      if cross t2 t1 p ≤ 0 then popWhileE p st.tail
      else Except.ok st
    | _, _ => Except.error "list index out of range"
  else Except.ok st
termination_by st.length
decreasing_by
  rw [List.length_tail]
  omega

/-- Error-aware variant of `chainStep`. -/
def chainStepE (st : List (R × R)) (p : R × R) : Except String (List (R × R)) :=
  (popWhileE p st).map (fun st2 => p :: st2)

/-- Error-aware variant of `buildChain`. -/
def buildChainE (pts : List (R × R)) : Except String (List (R × R)) :=
  (pts.foldlM chainStepE []).map List.reverse

/-- Error-aware transcription of `convex_hull_xy`; an `Except.error` result
would correspond to a Python exception escaping the function. -/
def convex_hull_xyE (points_xy : List (R × R)) : Except String (List (R × R)) :=
  let pts := sortPts points_xy
  if pts.length < 3 then Except.ok []
  else do
    let lower ← buildChainE pts
    let upper ← buildChainE pts.reverse
    Except.ok (lower.dropLast ++ upper.dropLast)

end Geometry

section Tags

/-- One record of the tabular input of `get_cluster_top_tags`: a cluster
identifier and the list-valued `tags` attribute. -/
structure Row where
  cluster : Int
  tags : List String
deriving DecidableEq

/-- First-occurrence deduplication, as performed by pandas `unique` and by
`Counter` key enumeration (both preserve first-encounter order). -/
def uniqueFirst {α : Type} [DecidableEq α] : List α → List α → List α
  | _, [] => []
  | seen, a :: l =>
    if a ∈ seen then uniqueFirst seen l else a :: uniqueFirst (a :: seen) l

/-- The filtered tag list contributed by one row: tags not in the exclusion
set, and only when the `tags` attribute is a non-empty list (the
`if tags_list and isinstance(tags_list, list)` guard; the type check always
holds in the typed model). -/
def rowTags (tags_to_delete : Finset String) (r : Row) : List String :=
  if r.tags ≠ [] then r.tags.filter (fun t => t ∉ tags_to_delete) else []

/-- All filtered tags of one cluster, in row order (`all_cluster_tags`). -/
def clusterTags (sample : List Row) (tags_to_delete : Finset String) (cid : Int) :
    List String :=
  ((sample.filter (fun r => r.cluster = cid)).map (rowTags tags_to_delete)).flatten

/-- Stable insertion of a keyed count into a list sorted by decreasing count:
the new item goes before every item of not larger count, behind every strictly
larger one. -/
def insertByCount (x : String × Nat) : List (String × Nat) → List (String × Nat)
  | [] => [x]
  | y :: ys => if y.2 ≤ x.2 then x :: y :: ys else y :: insertByCount x ys

/-- Stable sort by decreasing count (the behaviour of the stable
`sorted(..., reverse=True)` underlying `Counter.most_common`). -/
def sortByCountDesc (l : List (String × Nat)) : List (String × Nat) :=
  l.foldr insertByCount []

/-- Model of `Counter(l).most_common(n)`: count each distinct element (keys in
first-encounter order), sort stably by decreasing count, take `n`. -/
def most_common (l : List String) (n : Nat) : List (String × Nat) :=
  (sortByCountDesc ((uniqueFirst [] l).map (fun k => (k, l.count k)))).take n

/-- Transcription of `get_cluster_top_tags` from src/utils/tag.py.  The
returned Python dict, whose keys are inserted in iteration order of
`sample["cluster"].unique()`, is modelled as an association list. -/
def get_cluster_top_tags (sample : List Row) (tags_to_delete : Finset String)
    (n_top_tags : Nat) : List (Int × List String) :=
  ((uniqueFirst [] (sample.map (fun r => r.cluster))).filter
      (fun cid => ¬ cid = -1)).map
    (fun cid =>
      let all_cluster_tags := clusterTags sample tags_to_delete cid
      if all_cluster_tags ≠ [] then
        (cid, (most_common all_cluster_tags n_top_tags).map (fun tc => tc.1))
      else (cid, []))

/-- Output order of `most_common`: strictly larger count first; on equal
counts the entry whose key precedes in the order `Q` (instantiated with
first-encounter order). -/
def rankBefore (Q : (String × Nat) → (String × Nat) → Prop) (x y : String × Nat) : Prop :=
  y.2 < x.2 ∨ (y.2 = x.2 ∧ Q x y)

end Tags

section Predicates

variable {R : Type} [LinearOrderedCommRing R]

/-- Coordinatewise difference of two points (a displacement vector). -/
def vsub (u v : R × R) : R × R := (u.1 - v.1, u.2 - v.2)

/-- Cross product of two displacement vectors. -/
def cross2 (u v : R × R) : R := u.1 * v.2 - u.2 * v.1

/-- A displacement vector that is lexicographically positive (points towards
strictly larger coordinates). -/
def vecPos (v : R × R) : Prop := 0 < v.1 ∨ (v.1 = 0 ∧ 0 < v.2)

/-- A displacement vector that is lexicographically negative. -/
def vecNeg (v : R × R) : Prop := v.1 < 0 ∨ (v.1 = 0 ∧ v.2 < 0)

/-- Pointwise negation of a point; negating all points reverses the
lexicographic order and preserves cross products, which transfers every
statement about the lower chain to the upper chain. -/
def negPt (p : R × R) : R × R := (-p.1, -p.2)

/-- A predicate over each three consecutive elements of a list. -/
def Chain3 (P : (R × R) → (R × R) → (R × R) → Prop) : List (R × R) → Prop
  | [] => True
  | [_] => True
  | [_, _] => True
  | a :: b :: c :: l => P a b c ∧ Chain3 P (b :: c :: l)

instance Chain3.decidable (P : (R × R) → (R × R) → (R × R) → Prop)
    [∀ a b c, Decidable (P a b c)] : ∀ l, Decidable (Chain3 P l)
  | [] => Decidable.isTrue trivial
  | [_] => Decidable.isTrue trivial
  | [_, _] => Decidable.isTrue trivial
  | a :: b :: c :: l =>
    have := Chain3.decidable P (b :: c :: l)
    instDecidableAnd

/-- The last two elements of a list, when it has at least two. -/
def lastTwo : List (R × R) → Option ((R × R) × (R × R))
  | [] => none
  | [_] => none
  | [a, b] => some (a, b)
  | _ :: b :: c :: t => lastTwo (b :: c :: t)

/-- Every three consecutive points form a strict left (counter-clockwise)
turn. -/
def Turns (L : List (R × R)) : Prop := Chain3 (fun a b c => 0 < cross a b c) L

/-- `Turns` for the top-first stack representation (the stack reversed is the
chain in traversal order). -/
def ConvexStack (st : List (R × R)) : Prop :=
  Chain3 (fun c b a => 0 < cross a b c) st

/-- The point `q` lies on or to the left of every directed edge of the chain
`L` (for the final lower chain these edge lines support the whole point
set). -/
def EdgeSupport (q : R × R) (L : List (R × R)) : Prop :=
  List.Chain' (fun a b => 0 ≤ cross a b q) L

/-- `EdgeSupport` in the top-first stack representation. -/
def StackSupport (q : R × R) (st : List (R × R)) : Prop :=
  List.Chain' (fun b a => 0 ≤ cross a b q) st

/-- All points of the list are collinear (every triple has vanishing cross
product). -/
def AllCollinear (l : List (R × R)) : Prop :=
  ∀ a ∈ l, ∀ b ∈ l, ∀ c ∈ l, cross a b c = 0

/-- All cyclically consecutive triples of the list (wrapping around its end)
are strict left turns. -/
def CyclicTurns (L : List (R × R)) : Prop := Turns (L ++ L.take 2)

instance Turns.decidable (L : List (R × R)) : Decidable (Turns L) :=
  Chain3.decidable _ L

instance CyclicTurns.decidable (L : List (R × R)) : Decidable (CyclicTurns L) :=
  Turns.decidable _

instance AllCollinear.decidable (l : List (R × R)) : Decidable (AllCollinear l) := by
  unfold AllCollinear
  infer_instance

/-- Invariant of the chain-building loop: after processing the points `proc`
(in order), the stack `st` (top-first) is the lower convex chain of `proc`:
its bottom is the first and its top the last processed point, it is strictly
descending and strictly convex, and every processed point lies on or to the
left of each of its edges. -/
structure StackInv (proc st : List (R × R)) : Prop where
  ne : st ≠ []
  bottom : st.getLast? = proc.head?
  top : st.head? = proc.getLast?
  subset : ∀ x ∈ st, x ∈ proc
  desc : List.Chain' (fun a b => ptLT b a) st
  convex : ConvexStack st
  support : ∀ q ∈ proc, StackSupport q st

end Predicates

section OrderLemmas

variable {R : Type} [LinearOrderedCommRing R]

theorem ptLT_irrefl (p : R × R) : ¬ ptLT p p := by
  rintro (h | ⟨_, h⟩) <;> exact lt_irrefl _ h

theorem ptLT_trans {p q r : R × R} (h1 : ptLT p q) (h2 : ptLT q r) : ptLT p r := by
  rcases h1 with h1 | ⟨e1, h1⟩ <;> rcases h2 with h2 | ⟨e2, h2⟩
  · exact Or.inl (lt_trans h1 h2)
  · exact Or.inl (e2 ▸ h1)
  · exact Or.inl (e1 ▸ h2)
  · exact Or.inr ⟨e1.trans e2, lt_trans h1 h2⟩

theorem ptLE_refl (p : R × R) : ptLE p p := Or.inr ⟨rfl, le_refl _⟩

theorem ptLE_of_ptLT {p q : R × R} (h : ptLT p q) : ptLE p q := by
  rcases h with h | ⟨e, h⟩
  · exact Or.inl h
  · exact Or.inr ⟨e, le_of_lt h⟩

theorem ptLT_of_ptLE_of_ne {p q : R × R} (h : ptLE p q) (hne : p ≠ q) : ptLT p q := by
  rcases h with h | ⟨e, h⟩
  · exact Or.inl h
  · rcases eq_or_lt_of_le h with h2 | h2
    · exact absurd (Prod.ext e h2) hne
    · exact Or.inr ⟨e, h2⟩

theorem ptLE_trans {p q r : R × R} (h1 : ptLE p q) (h2 : ptLE q r) : ptLE p r := by
  rcases h1 with h1 | ⟨e1, h1⟩ <;> rcases h2 with h2 | ⟨e2, h2⟩
  · exact Or.inl (lt_trans h1 h2)
  · exact Or.inl (e2 ▸ h1)
  · exact Or.inl (e1 ▸ h2)
  · exact Or.inr ⟨e1.trans e2, le_trans h1 h2⟩

theorem ptLE_antisymm {p q : R × R} (h1 : ptLE p q) (h2 : ptLE q p) : p = q := by
  rcases h1 with h1 | ⟨e1, h1⟩ <;> rcases h2 with h2 | ⟨e2, h2⟩
  · exact absurd (lt_trans h1 h2) (lt_irrefl _)
  · exact absurd h1 (e2 ▸ lt_irrefl _)
  · exact absurd h2 (e1 ▸ lt_irrefl _)
  · exact Prod.ext e1 (le_antisymm h1 h2)

theorem ptLE_total (p q : R × R) : ptLE p q ∨ ptLE q p := by
  rcases lt_trichotomy p.1 q.1 with h | h | h
  · exact Or.inl (Or.inl h)
  · rcases le_total p.2 q.2 with h2 | h2
    · exact Or.inl (Or.inr ⟨h, h2⟩)
    · exact Or.inr (Or.inr ⟨h.symm, h2⟩)
  · exact Or.inr (Or.inl h)

theorem ptLT_of_not_ptLE {p q : R × R} (h : ¬ ptLE p q) : ptLT q p := by
  rcases ptLE_total p q with h2 | h2
  · exact absurd h2 h
  · exact ptLT_of_ptLE_of_ne h2 (fun e => h (e ▸ ptLE_refl p))

theorem ptLT_asymm {p q : R × R} (h : ptLT p q) : ¬ ptLT q p := fun h2 =>
  ptLT_irrefl p (ptLT_trans h h2)

instance : IsTrans (R × R) ptLT := ⟨fun _ _ _ => ptLT_trans⟩

instance : IsTrans (R × R) ptLE := ⟨fun _ _ _ => ptLE_trans⟩

instance : IsAntisymm (R × R) ptLE := ⟨fun _ _ => ptLE_antisymm⟩

instance : IsTotal (R × R) ptLE := ⟨ptLE_total⟩

end OrderLemmas

section SortPtsLemmas

variable {R : Type} [LinearOrderedCommRing R]

theorem sortPts_sorted (l : List (R × R)) : List.Sorted ptLE (sortPts l) :=
  List.sorted_insertionSort ptLE l.dedup

theorem sortPts_perm_dedup (l : List (R × R)) : List.Perm (sortPts l) l.dedup :=
  List.perm_insertionSort ptLE l.dedup

theorem sortPts_nodup (l : List (R × R)) : (sortPts l).Nodup :=
  (sortPts_perm_dedup l).nodup_iff.mpr (List.nodup_dedup l)

theorem mem_sortPts {l : List (R × R)} {x : R × R} : x ∈ sortPts l ↔ x ∈ l :=
  ((sortPts_perm_dedup l).mem_iff).trans (List.mem_dedup)

theorem sortPts_length (l : List (R × R)) : (sortPts l).length = l.toFinset.card := by
  rw [(sortPts_perm_dedup l).length_eq, List.card_toFinset]

theorem sortPts_pairwise (l : List (R × R)) : List.Pairwise ptLT (sortPts l) := by
  have h1 : List.Pairwise ptLE (sortPts l) := sortPts_sorted l
  have h2 : List.Pairwise (fun a b : R × R => a ≠ b) (sortPts l) := sortPts_nodup l
  exact (h1.and h2).imp (fun h => ptLT_of_ptLE_of_ne h.1 h.2)

theorem sortPts_chain (l : List (R × R)) : List.Chain' ptLT (sortPts l) :=
  List.chain'_iff_pairwise.mpr (sortPts_pairwise l)

theorem pairwise_ptLT_nodup {X : List (R × R)} (h : List.Pairwise ptLT X) : X.Nodup :=
  h.imp (fun hlt => fun he => ptLT_irrefl _ (he ▸ hlt))

/-- `sortPts l` is the unique strictly sorted enumeration of the points of
`l`: any strictly sorted list with the same membership is equal to it. -/
theorem sortPts_eq_of_pairwise_mem {l X : List (R × R)} (hs : List.Pairwise ptLT X)
    (hmem : ∀ x, x ∈ X ↔ x ∈ l) : sortPts l = X := by
  have hnd : X.Nodup := pairwise_ptLT_nodup hs
  have hperm : List.Perm (sortPts l) X := by
    rw [List.perm_ext_iff_of_nodup (sortPts_nodup l) hnd]
    intro x
    rw [mem_sortPts, hmem x]
  exact List.eq_of_perm_of_sorted hperm (sortPts_sorted l) (hs.imp ptLE_of_ptLT)

theorem sortPts_eq_of_mem_iff {l l2 : List (R × R)} (h : ∀ x, x ∈ l ↔ x ∈ l2) :
    sortPts l = sortPts l2 :=
  (sortPts_eq_of_pairwise_mem (sortPts_pairwise l)
    (fun x => mem_sortPts.trans (h x))).symm

theorem sortPts_eq_of_toFinset_eq {l l2 : List (R × R)} (h : l.toFinset = l2.toFinset) :
    sortPts l = sortPts l2 :=
  sortPts_eq_of_mem_iff (fun x => by
    rw [← List.mem_toFinset, h, List.mem_toFinset])

theorem sortPts_head_min {l : List (R × R)} {m : R × R} {rest : List (R × R)}
    (h : sortPts l = m :: rest) : ∀ p ∈ l, ptLE m p := by
  intro p hp
  have hmem : p ∈ m :: rest := by rw [← h, mem_sortPts]; exact hp
  rcases List.mem_cons.mp hmem with he | ht
  · exact he ▸ ptLE_refl m
  · have hpw := sortPts_pairwise l
    rw [h] at hpw
    exact ptLE_of_ptLT (List.rel_of_pairwise_cons hpw ht)

theorem pairwise_rel_getLast {X : List (R × R)} (h : List.Pairwise ptLE X) {M : R × R}
    (hM : X.getLast? = some M) : ∀ p ∈ X, ptLE p M := by
  induction X with
  | nil => intro p hp; cases hp
  | cons a t ih =>
    intro p hp
    cases t with
    | nil =>
      have ha : a = M := by simpa using hM
      have hpa : p = a := by simpa using hp
      exact hpa ▸ ha ▸ ptLE_refl a
    | cons b t2 =>
      rw [List.getLast?_cons_cons] at hM
      rcases List.mem_cons.mp hp with he | ht
      · subst he
        have hMmem : M ∈ b :: t2 := by
          rcases List.mem_getLast?_eq_getLast hM with ⟨hne, hMe⟩
          exact hMe ▸ List.getLast_mem hne
        exact ptLE_trans (List.rel_of_pairwise_cons h hMmem) (ptLE_refl M)
      · exact ih (List.Pairwise.of_cons h) hM p ht

theorem sortPts_getLast_max {l : List (R × R)} {M : R × R}
    (h : (sortPts l).getLast? = some M) : ∀ p ∈ l, ptLE p M := fun p hp =>
  pairwise_rel_getLast (sortPts_sorted l) h p (mem_sortPts.mpr hp)

end SortPtsLemmas

section ChainStructure

variable {R : Type} [LinearOrderedCommRing R]

theorem popWhile_suffix (p : R × R) : ∀ st : List (R × R), popWhile p st <:+ st
  | [] => List.suffix_refl _
  | [t] => List.suffix_refl _
  | t1 :: t2 :: rest => by
    rw [popWhile]
    split
    · exact (popWhile_suffix p (t2 :: rest)).trans (List.suffix_cons t1 (t2 :: rest))
    · exact List.suffix_refl _

theorem popWhile_subset {p : R × R} {st : List (R × R)} {x : R × R}
    (h : x ∈ popWhile p st) : x ∈ st :=
  (popWhile_suffix p st).subset h

theorem popWhile_ne_nil (p : R × R) : ∀ st : List (R × R), st ≠ [] → popWhile p st ≠ []
  | [], h => absurd rfl h
  | [t], _ => List.cons_ne_nil t []
  | t1 :: t2 :: rest, _ => by
    rw [popWhile]
    split
    · exact popWhile_ne_nil p (t2 :: rest) (List.cons_ne_nil t2 rest)
    · exact List.cons_ne_nil t1 (t2 :: rest)

theorem popWhile_getLast? (p : R × R) :
    ∀ st : List (R × R), (popWhile p st).getLast? = st.getLast?
  | [] => rfl
  | [_] => rfl
  | t1 :: t2 :: rest => by
    rw [popWhile]
    split
    · rw [popWhile_getLast? p (t2 :: rest), List.getLast?_cons_cons]
    · rfl

theorem popWhile_exit_pos {p : R × R} :
    ∀ (st : List (R × R)) {t1 t2 : R × R} {r : List (R × R)},
      popWhile p st = t1 :: t2 :: r → 0 < cross t2 t1 p
  | [], _, _, _, h => List.noConfusion h
  | [t], _, _, _, h => by
    rw [popWhile] at h
    injection h with _ h
    exact List.noConfusion h
  | a1 :: a2 :: rest, _, _, _, h => by
    rw [popWhile] at h
    split at h
    · exact popWhile_exit_pos (a2 :: rest) h
    · rename_i hc
      injection h with h1 h
      injection h with h2 _
      subst h1
      subst h2
      exact lt_of_not_le hc

theorem popWhile_cases (p : R × R) :
    ∀ st : List (R × R), popWhile p st = st ∨
      ∃ c t r, (c :: t :: r) <:+ st ∧ popWhile p st = t :: r ∧ cross t c p ≤ 0
  | [] => Or.inl rfl
  | [t] => Or.inl rfl
  | t1 :: t2 :: rest => by
    rw [popWhile]
    split
    · rename_i hc
      right
      rcases popWhile_cases p (t2 :: rest) with he | ⟨c, t, r, hsuf, he, hcc⟩
      · exact ⟨t1, t2, rest, List.suffix_refl _, he, hc⟩
      · exact ⟨c, t, r, hsuf.trans (List.suffix_cons t1 (t2 :: rest)), he, hcc⟩
    · exact Or.inl rfl

theorem lowerRev_subset :
    ∀ (pts st : List (R × R)) {x : R × R}, x ∈ pts.foldl chainStep st → x ∈ st ∨ x ∈ pts
  | [], _, _, h => Or.inl h
  | a :: t, st, x, h => by
    rcases lowerRev_subset t (chainStep st a) h with h2 | h2
    · rcases List.mem_cons.mp h2 with he | hm
      · exact Or.inr (he ▸ List.mem_cons_self a t)
      · exact Or.inl (popWhile_subset hm)
    · exact Or.inr (List.mem_cons_of_mem a h2)

theorem mem_buildChain {pts : List (R × R)} {x : R × R} (h : x ∈ buildChain pts) :
    x ∈ pts := by
  rw [buildChain, List.mem_reverse] at h
  rcases lowerRev_subset pts [] h with h2 | h2
  · cases h2
  · exact h2

end ChainStructure

section ErrorModel

variable {R : Type} [LinearOrderedCommRing R]

theorem popWhileE_eq (p : R × R) :
    ∀ st : List (R × R), popWhileE p st = Except.ok (popWhile p st)
  | [] => by rw [popWhileE.eq_def]; simp [popWhile]
  | [t] => by rw [popWhileE.eq_def]; simp [popWhile]
  | t1 :: t2 :: rest => by
    rw [popWhileE.eq_def]
    have hlen : 2 ≤ (t1 :: t2 :: rest).length := by simp
    rw [dif_pos hlen]
    simp only [List.get?_cons_zero, List.get?_cons_succ, List.tail_cons]
    rw [popWhile]
    split
    · exact popWhileE_eq p (t2 :: rest)
    · rfl

theorem chainStepE_eq (st : List (R × R)) (p : R × R) :
    chainStepE st p = Except.ok (chainStep st p) := by
  rw [chainStepE, popWhileE_eq]
  rfl

theorem foldlM_chainStepE_eq :
    ∀ (pts st : List (R × R)),
      List.foldlM chainStepE st pts = Except.ok (List.foldl chainStep st pts)
  | [], _ => rfl
  | a :: t, st => by
    rw [List.foldlM_cons, chainStepE_eq]
    show List.foldlM chainStepE (chainStep st a) t = _
    rw [foldlM_chainStepE_eq t (chainStep st a), List.foldl_cons]

theorem buildChainE_eq (pts : List (R × R)) :
    buildChainE pts = Except.ok (buildChain pts) := by
  rw [buildChainE, foldlM_chainStepE_eq]
  rfl

end ErrorModel

section HullBasic

variable {R : Type} [LinearOrderedCommRing R]

theorem convex_hull_xy_eq (l : List (R × R)) :
    convex_hull_xy l =
      if (sortPts l).length < 3 then []
      else (buildChain (sortPts l)).dropLast ++
        (buildChain (sortPts l).reverse).dropLast := rfl

theorem hull_empty_of_card_lt (l : List (R × R)) (h : l.toFinset.card < 3) :
    convex_hull_xy l = [] := by
  rw [convex_hull_xy_eq, if_pos]
  rw [sortPts_length]
  exact h

theorem hull_subset {l : List (R × R)} {p : R × R} (h : p ∈ convex_hull_xy l) : p ∈ l := by
  rw [convex_hull_xy_eq] at h
  split at h
  · cases h
  · rcases List.mem_append.mp h with h2 | h2
    · exact mem_sortPts.mp (mem_buildChain (List.mem_of_mem_dropLast h2))
    · exact mem_sortPts.mp (List.mem_reverse.mp (mem_buildChain (List.mem_of_mem_dropLast h2)))

theorem hull_eq_of_toFinset_eq {l l2 : List (R × R)} (h : l.toFinset = l2.toFinset) :
    convex_hull_xy l = convex_hull_xy l2 := by
  rw [convex_hull_xy_eq, convex_hull_xy_eq, sortPts_eq_of_toFinset_eq h]

theorem hull_eq_of_perm {l l2 : List (R × R)} (h : List.Perm l l2) :
    convex_hull_xy l = convex_hull_xy l2 :=
  hull_eq_of_toFinset_eq (by
    ext x
    rw [List.mem_toFinset, List.mem_toFinset, h.mem_iff])

theorem convex_hull_xyE_eq_ok (l : List (R × R)) :
    convex_hull_xyE l = Except.ok (convex_hull_xy l) := by
  rw [convex_hull_xyE, convex_hull_xy_eq]
  split
  · rfl
  · rw [buildChainE_eq, buildChainE_eq]
    rfl

end HullBasic

section CollinearCase

variable {R : Type} [LinearOrderedCommRing R]

theorem collinear_foldl {T : List (R × R)} (hcol : AllCollinear T) :
    ∀ (l : List (R × R)) (a b : R × R), a ∈ T → b ∈ T → (∀ x ∈ l, x ∈ T) →
      List.foldl chainStep [b, a] l = [(b :: l).getLast (List.cons_ne_nil b l), a]
  | [], a, b, _, _, _ => by simp
  | c :: t, a, b, ha, hb, hsub => by
    have hc : c ∈ T := hsub c (List.mem_cons_self c t)
    have hstep : chainStep [b, a] c = [c, a] := by
      rw [chainStep, popWhile, if_pos (le_of_eq (hcol a ha b hb c hc))]
      rfl
    rw [List.foldl_cons, hstep,
      collinear_foldl hcol t a c ha hc (fun x hx => hsub x (List.mem_cons_of_mem c hx))]
    congr 1

theorem collinear_buildChain {T : List (R × R)} (hcol : AllCollinear T)
    {pts : List (R × R)} (hsub : ∀ x ∈ pts, x ∈ T) (hlen : 2 ≤ pts.length) :
    ∃ m M, pts.head? = some m ∧ pts.getLast? = some M ∧ buildChain pts = [m, M] := by
  match pts, hlen with
  | p0 :: p1 :: rest, _ =>
    have h0 : p0 ∈ T := hsub p0 (by simp)
    have h1 : p1 ∈ T := hsub p1 (by simp)
    refine ⟨p0, (p1 :: rest).getLast (List.cons_ne_nil p1 rest), rfl, ?_, ?_⟩
    · rw [List.getLast?_cons_cons, List.getLast?_eq_getLast_of_ne_nil (List.cons_ne_nil p1 rest)]
    · rw [buildChain, lowerRev, List.foldl_cons, List.foldl_cons]
      have hs1 : chainStep [] p0 = [p0] := rfl
      have hs2 : chainStep [p0] p1 = [p1, p0] := rfl
      rw [hs1, hs2, collinear_foldl hcol rest p0 p1 h0 h1
        (fun x hx => hsub x (by simp [hx]))]
      simp

theorem hull_of_collinear {l : List (R × R)} (hcard : 3 ≤ l.toFinset.card)
    (hcol : AllCollinear l) :
    ∃ m M, (sortPts l).head? = some m ∧ (sortPts l).getLast? = some M ∧
      convex_hull_xy l = [m, M] := by
  have hlen : 3 ≤ (sortPts l).length := by rw [sortPts_length]; exact hcard
  have hsub : ∀ x ∈ sortPts l, x ∈ l := fun x hx => mem_sortPts.mp hx
  obtain ⟨m, M, hm, hM, hBC⟩ :=
    collinear_buildChain hcol hsub (le_trans (by norm_num) hlen)
  have hsubr : ∀ x ∈ (sortPts l).reverse, x ∈ l := fun x hx =>
    hsub x (List.mem_reverse.mp hx)
  have hlenr : 2 ≤ (sortPts l).reverse.length := by
    rw [List.length_reverse]; exact le_trans (by norm_num) hlen
  obtain ⟨m2, M2, hm2, hM2, hBC2⟩ := collinear_buildChain hcol hsubr hlenr
  rw [List.head?_reverse, hM] at hm2
  rw [List.getLast?_reverse, hm] at hM2
  refine ⟨m, M, hm, hM, ?_⟩
  rw [convex_hull_xy_eq, if_neg (by omega), hBC, hBC2,
    Option.some_injective _ hm2, Option.some_injective _ hM2]
  rfl

end CollinearCase

section Algebra

variable {R : Type} [LinearOrderedCommRing R]

theorem cross_vec (o a b : R × R) : cross o a b = cross2 (vsub a o) (vsub b o) := by
  simp only [cross, cross2, vsub]

theorem cross_vec2 (o a b : R × R) : cross o a b = cross2 (vsub a o) (vsub b a) := by
  simp only [cross, cross2, vsub]
  ring

theorem cross_swap23 (o a b : R × R) : cross o a b = -cross o b a := by
  simp only [cross]; ring

theorem cross_cyclic (o a b : R × R) : cross o a b = cross a b o := by
  simp only [cross]; ring

theorem cross_self23 (o a : R × R) : cross o a a = 0 := by
  simp only [cross]; ring

theorem cross_self12 (o b : R × R) : cross o o b = 0 := by
  simp only [cross]; ring

theorem vecPos_vsub_of_ptLT {a b : R × R} (h : ptLT a b) : vecPos (vsub b a) := by
  rcases h with h | ⟨he, h⟩
  · exact Or.inl (by simp only [vsub]; linarith)
  · exact Or.inr ⟨by simp only [vsub, he]; ring, by simp only [vsub]; linarith⟩

theorem vecNeg_vsub_of_ptLT {a b : R × R} (h : ptLT a b) : vecNeg (vsub a b) := by
  rcases h with h | ⟨he, h⟩
  · exact Or.inl (by simp only [vsub]; linarith)
  · exact Or.inr ⟨by simp only [vsub, he]; ring, by simp only [vsub]; linarith⟩

theorem vecPos_x_nonneg {v : R × R} (h : vecPos v) : 0 ≤ v.1 := by
  rcases h with h | ⟨he, _⟩
  · exact le_of_lt h
  · exact le_of_eq he.symm

theorem vecNeg_x_nonpos {v : R × R} (h : vecNeg v) : v.1 ≤ 0 := by
  rcases h with h | ⟨he, _⟩
  · exact le_of_lt h
  · exact le_of_eq he

theorem cross2_id_x (u v w : R × R) :
    cross2 u w * v.1 = cross2 u v * w.1 + cross2 v w * u.1 := by
  simp only [cross2]; ring

theorem vecTrans_pos {u v w : R × R} (hu : vecPos u) (hv : vecPos v) (hw : vecPos w)
    (h1 : 0 < cross2 u v) (h2 : 0 < cross2 v w) : 0 < cross2 u w := by
  have key := cross2_id_x u v w
  rcases hv with hv1 | ⟨hv1, hv2⟩
  · have hwx : 0 ≤ w.1 := vecPos_x_nonneg hw
    rcases hu with hu1 | ⟨hu1, hu2⟩
    · by_contra hcon
      push_neg at hcon
      nlinarith [mul_nonneg h1.le hwx, mul_pos h2 hu1]
    · exfalso
      have : cross2 u v = -(u.2 * v.1) := by simp only [cross2, hu1]; ring
      nlinarith
  · exfalso
    have hwx : 0 ≤ w.1 := vecPos_x_nonneg hw
    have : cross2 v w = -(v.2 * w.1) := by simp only [cross2, hv1]; ring
    nlinarith

theorem support_bot {u v d : R × R} (hu : vecPos u) (hv : vecPos v ∨ v = (0, 0))
    (hd : vecPos d) (h1 : 0 ≤ cross2 u v) (h2 : cross2 u d ≤ 0) : 0 ≤ cross2 d v := by
  have key := cross2_id_x d u v
  have hvx : 0 ≤ v.1 := by
    rcases hv with hv | hv
    · exact vecPos_x_nonneg hv
    · rw [hv]
  have hdx : 0 ≤ d.1 := vecPos_x_nonneg hd
  have hdu : 0 ≤ cross2 d u := by
    have : cross2 d u = -cross2 u d := by simp only [cross2]; ring
    rw [this]
    linarith
  rcases hu with hu1 | ⟨hu1, hu2⟩
  · by_contra hcon
    push_neg at hcon
    nlinarith [mul_nonneg hdu hvx, mul_nonneg h1 hdx]
  · have huv : cross2 u v = -(u.2 * v.1) := by simp only [cross2, hu1]; ring
    have hv1 : v.1 = 0 := by nlinarith
    have hv2 : 0 ≤ v.2 := by
      rcases hv with hv | hv
      · rcases hv with h | ⟨_, h⟩
        · exact absurd (hv1 ▸ h) (lt_irrefl 0)
        · exact le_of_lt h
      · rw [hv]
    have : cross2 d v = d.1 * v.2 := by simp only [cross2, hv1]; ring
    rw [this]
    exact mul_nonneg hdx hv2

theorem support_top {u v d : R × R} (hu : vecPos u) (hv : vecNeg v ∨ v = (0, 0))
    (hd : vecPos d) (h1 : 0 ≤ cross2 u v) (h2 : 0 < cross2 u d) : 0 ≤ cross2 d v := by
  have key := cross2_id_x d u v
  have hvx : v.1 ≤ 0 := by
    rcases hv with hv | hv
    · exact vecNeg_x_nonpos hv
    · rw [hv]
  have hdx : 0 ≤ d.1 := vecPos_x_nonneg hd
  have hdu : cross2 d u ≤ 0 := by
    have : cross2 d u = -cross2 u d := by simp only [cross2]; ring
    rw [this]
    linarith
  rcases hu with hu1 | ⟨hu1, hu2⟩
  · by_contra hcon
    push_neg at hcon
    nlinarith [mul_nonneg (neg_nonneg.mpr hdu) (neg_nonneg.mpr hvx), mul_nonneg h1 hdx]
  · exfalso
    have : cross2 u d = -(u.2 * d.1) := by simp only [cross2, hu1]; ring
    nlinarith

theorem cone {d1 d2 d v : R × R} (h12 : 0 < cross2 d1 d2) (h1d : 0 < cross2 d1 d)
    (hd2 : 0 ≤ cross2 d d2) (hv1 : 0 ≤ cross2 d1 v) (hv2 : 0 ≤ cross2 d2 v) :
    0 ≤ cross2 d v := by
  have key : cross2 d1 d2 * cross2 d v =
      cross2 d1 d * cross2 d2 v + cross2 d d2 * cross2 d1 v := by
    simp only [cross2]; ring
  by_contra hcon
  push_neg at hcon
  nlinarith [mul_nonneg h1d.le hv2, mul_nonneg hd2 hv1]

theorem collinear_contra_vec {u v w : R × R} (hu : vecPos u) (hvu : vecPos (vsub v u))
    (hcol : cross2 u v = 0) (hturn : 0 < cross2 u w) (hsup : 0 ≤ cross2 w (vsub v u)) :
    False := by
  have key : cross2 w (vsub v u) * u.1 = -(cross2 u w * (v.1 - u.1)) + cross2 u v * w.1 := by
    simp only [cross2, vsub]; ring
  rw [hcol] at key
  have hvu1 : 0 ≤ v.1 - u.1 := by
    have := vecPos_x_nonneg hvu
    simp only [vsub] at this
    linarith
  rcases hu with hu1 | ⟨hu1, hu2⟩
  · rcases eq_or_lt_of_le hvu1 with he | hlt
    · have hv1 : v.1 = u.1 := by linarith
      have hvu2 : 0 < v.2 - u.2 := by
        rcases hvu with h | ⟨_, h⟩
        · simp only [vsub] at h; linarith
        · simp only [vsub] at h; linarith
      have : cross2 u v = u.1 * (v.2 - u.2) := by simp only [cross2, hv1]; ring
      nlinarith
    · nlinarith [mul_nonneg hsup (le_of_lt hu1)]
  · have hw1 : w.1 < 0 := by
      have : cross2 u w = -(u.2 * w.1) := by simp only [cross2, hu1]; ring
      nlinarith
    have hv1 : v.1 = 0 := by
      have : cross2 u v = -(u.2 * v.1) := by simp only [cross2, hu1]; ring
      rw [this] at hcol
      have : u.2 * v.1 = 0 := by linarith
      rcases mul_eq_zero.mp this with h | h
      · exact absurd h (ne_of_gt hu2)
      · exact h
    have hvu2 : 0 < v.2 - u.2 := by
      rcases hvu with h | ⟨_, h⟩
      · exfalso
        simp only [vsub] at h
        linarith
      · simp only [vsub] at h
        linarith
    have : cross2 w (vsub v u) = w.1 * (v.2 - u.2) := by
      simp only [cross2, vsub, hv1, hu1]
      ring
    nlinarith

theorem two_supports_line {D1 D2 z : R × R} (h12 : cross2 D1 D2 = 0) (hD1 : vecPos D1)
    (hD2 : vecNeg D2) (h1 : 0 ≤ cross2 D1 z) (h2 : 0 ≤ cross2 D2 z) : cross2 D1 z = 0 := by
  have key := cross2_id_x D2 D1 z
  have h21 : cross2 D2 D1 = 0 := by
    have : cross2 D2 D1 = -cross2 D1 D2 := by simp only [cross2]; ring
    rw [this, h12, neg_zero]
  rw [h21, zero_mul, zero_add] at key
  rcases hD1 with hD11 | ⟨hD11, hD12⟩
  · rcases hD2 with hD21 | ⟨hD21, hD22⟩
    · nlinarith [mul_nonneg h2 (le_of_lt hD11)]
    · exfalso
      have : cross2 D1 D2 = D1.1 * D2.2 := by simp only [cross2, hD21]; ring
      nlinarith
  · have hD21 : D2.1 = 0 := by
      have : cross2 D1 D2 = -(D1.2 * D2.1) := by simp only [cross2, hD11]; ring
      rw [this] at h12
      have h0 : D1.2 * D2.1 = 0 := by linarith
      rcases mul_eq_zero.mp h0 with h | h
      · exact absurd h (ne_of_gt hD12)
      · exact h
    have hD22 : D2.2 < 0 := by
      rcases hD2 with h | ⟨_, h⟩
      · exact absurd (hD21 ▸ h) (lt_irrefl 0)
      · exact h
    have e1 : cross2 D1 z = -(D1.2 * z.1) := by simp only [cross2, hD11]; ring
    have e2 : cross2 D2 z = -(D2.2 * z.1) := by simp only [cross2, hD21]; ring
    have hz1 : z.1 = 0 := by
      rw [e1] at h1
      rw [e2] at h2
      nlinarith
    rw [e1, hz1, mul_zero, neg_zero]

theorem par_cross_zero {D u v : R × R} (hD : D ≠ (0, 0)) (h1 : cross2 D u = 0)
    (h2 : cross2 D v = 0) : cross2 u v = 0 := by
  have keyx : cross2 u v * D.1 = cross2 D v * u.1 - cross2 D u * v.1 := by
    simp only [cross2]; ring
  have keyy : cross2 u v * D.2 = cross2 D v * u.2 - cross2 D u * v.2 := by
    simp only [cross2]; ring
  rw [h1, h2] at keyx keyy
  simp only [zero_mul, sub_zero, zero_sub, neg_zero] at keyx keyy
  rcases eq_or_ne D.1 0 with hD1 | hD1
  · rcases eq_or_ne D.2 0 with hD2 | hD2
    · exact absurd (Prod.ext hD1 hD2) hD
    · exact (mul_eq_zero.mp keyy).resolve_right hD2
  · exact (mul_eq_zero.mp keyx).resolve_right hD1

theorem vsubPt_ne_zero {P Q : R × R} (h : P ≠ Q) : vsub Q P ≠ (0, 0) := by
  intro he
  apply h
  have h1 : Q.1 - P.1 = 0 := congrArg Prod.fst he
  have h2 : Q.2 - P.2 = 0 := congrArg Prod.snd he
  exact (Prod.ext (by linarith) (by linarith)).symm

theorem line_collinear {P Q a b c : R × R} (hPQ : P ≠ Q) (ha : cross P Q a = 0)
    (hb : cross P Q b = 0) (hc : cross P Q c = 0) : cross a b c = 0 := by
  rw [cross_vec] at ha hb hc
  have hab : cross2 (vsub a P) (vsub b P) = 0 := par_cross_zero (vsubPt_ne_zero hPQ) ha hb
  have hbc : cross2 (vsub b P) (vsub c P) = 0 := par_cross_zero (vsubPt_ne_zero hPQ) hb hc
  have hac : cross2 (vsub a P) (vsub c P) = 0 := par_cross_zero (vsubPt_ne_zero hPQ) ha hc
  have key : cross a b c =
      cross2 (vsub a P) (vsub b P) + cross2 (vsub b P) (vsub c P) -
        cross2 (vsub a P) (vsub c P) := by
    simp only [cross, cross2, vsub]; ring
  rw [key, hab, hbc, hac]
  ring

end Algebra

section Chain3Lemmas

variable {R : Type} [LinearOrderedCommRing R]
variable {P : (R × R) → (R × R) → (R × R) → Prop}

theorem chain3_short : ∀ {l : List (R × R)}, l.length ≤ 2 → Chain3 P l
  | [], _ => trivial
  | [_], _ => trivial
  | [_, _], _ => trivial
  | _ :: _ :: _ :: _, h => by simp at h

theorem chain3_cons3 {a b c : R × R} {l : List (R × R)} :
    Chain3 P (a :: b :: c :: l) ↔ P a b c ∧ Chain3 P (b :: c :: l) := Iff.rfl

theorem chain3_tail : ∀ {l : List (R × R)}, Chain3 P l → Chain3 P l.tail
  | [], _ => trivial
  | [_], _ => trivial
  | [_, _], _ => trivial
  | _ :: _ :: _ :: _, h => h.2

theorem chain3_of_append_right :
    ∀ (t l : List (R × R)), Chain3 P (t ++ l) → Chain3 P l
  | [], _, h => h
  | x :: t, l, h => chain3_of_append_right t l (chain3_tail (l := x :: (t ++ l)) h)

theorem chain3_suffix {l1 l2 : List (R × R)} (hs : l1 <:+ l2) (h : Chain3 P l2) :
    Chain3 P l1 := by
  obtain ⟨t, ht⟩ := hs
  exact chain3_of_append_right t l1 (ht ▸ h)

theorem lastTwo_append_pair : ∀ (m : List (R × R)) (a b : R × R),
    lastTwo (m ++ [a, b]) = some (a, b)
  | [], _, _ => rfl
  | [y], _, _ => rfl
  | y :: z :: t, a, b => by
    have h : (y :: z :: t) ++ [a, b] = y :: z :: (t ++ [a, b]) := by simp
    rw [h]
    match t with
    | [] => exact lastTwo_append_pair [z] a b
    | w :: t2 =>
      show lastTwo (z :: w :: t2 ++ [a, b]) = some (a, b)
      exact lastTwo_append_pair (z :: w :: t2) a b

theorem lastTwo_reverse_cons_cons (b c : R × R) (t : List (R × R)) :
    lastTwo (b :: c :: t).reverse = some (c, b) := by
  have h : (b :: c :: t).reverse = t.reverse ++ [c, b] := by simp
  rw [h, lastTwo_append_pair]

theorem chain3_snoc : ∀ (m : List (R × R)) (x : R × R),
    Chain3 P (m ++ [x]) ↔
      Chain3 P m ∧ (∀ a b, lastTwo m = some (a, b) → P a b x)
  | [], x => by
    constructor
    · intro _; exact ⟨trivial, fun a b h => by cases h⟩
    · intro _; exact trivial
  | [y], x => by
    constructor
    · intro _; exact ⟨trivial, fun a b h => by cases h⟩
    · intro _; exact trivial
  | [y, z], x => by
    constructor
    · intro h
      refine ⟨trivial, fun a b hab => ?_⟩
      injection hab with hab
      cases hab
      exact h.1
    · rintro ⟨_, h⟩
      exact ⟨h y z rfl, trivial⟩
  | y :: z :: w :: t, x => by
    have ih := chain3_snoc (z :: w :: t) x
    constructor
    · intro hC
      have h1 : P y z w := hC.1
      have h2 := ih.mp hC.2
      exact ⟨⟨h1, h2.1⟩, fun a b hab => h2.2 a b hab⟩
    · rintro ⟨⟨h1, h2⟩, h3⟩
      exact ⟨h1, ih.mpr ⟨h2, fun a b hab => h3 a b hab⟩⟩

end Chain3Lemmas

section Chain3More

variable {R : Type} [LinearOrderedCommRing R]
variable {P : (R × R) → (R × R) → (R × R) → Prop}

theorem chain3_reverse : ∀ (l : List (R × R)),
    Chain3 P l.reverse ↔ Chain3 (fun a b c => P c b a) l
  | [] => Iff.rfl
  | x :: l2 => by
    rw [List.reverse_cons, chain3_snoc, chain3_reverse l2]
    cases l2 with
    | nil =>
      constructor
      · intro _; trivial
      · intro _
        refine ⟨trivial, fun a b h => ?_⟩
        simp [lastTwo] at h
    | cons y l3 =>
      cases l3 with
      | nil =>
        constructor
        · intro _; trivial
        · intro _
          refine ⟨trivial, fun a b h => ?_⟩
          simp [lastTwo] at h
      | cons z t =>
        have hl2 := lastTwo_reverse_cons_cons y z t
        constructor
        · rintro ⟨h1, h2⟩
          exact ⟨h2 z y hl2, h1⟩
        · rintro ⟨h1, h2⟩
          refine ⟨h2, fun a b hab => ?_⟩
          rw [hl2] at hab
          injection hab with hab
          cases hab
          exact h1

theorem chain3_cons_build {a : R × R} {l : List (R × R)} (hC : Chain3 P l)
    (h : ∀ b c t, l = b :: c :: t → P a b c) : Chain3 P (a :: l) := by
  cases l with
  | nil => trivial
  | cons b l2 =>
    cases l2 with
    | nil => trivial
    | cons c t => exact ⟨h b c t rfl, hC⟩

theorem chain3_append_of :
    ∀ (l1 l2 : List (R × R)), Chain3 P l1 → Chain3 P l2 →
      (∀ a b, lastTwo l1 = some (a, b) → ∀ c, l2.head? = some c → P a b c) →
      (∀ a, l1.getLast? = some a → ∀ b c t, l2 = b :: c :: t → P a b c) →
      Chain3 P (l1 ++ l2)
  | [], l2, _, h2, _, _ => h2
  | [y], l2, _, h2, _, h4 =>
    chain3_cons_build h2 (fun b c t hl2 => h4 y rfl b c t hl2)
  | y :: z :: t1, l2, h1, h2, h3, h4 => by
    show Chain3 P (y :: ((z :: t1) ++ l2))
    have hrec : Chain3 P ((z :: t1) ++ l2) := by
      refine chain3_append_of (z :: t1) l2 (chain3_tail h1) h2 ?_ ?_
      · intro a b hab c hc
        cases t1 with
        | nil => simp [lastTwo] at hab
        | cons w t2 => exact h3 a b hab c hc
      · intro a ha b c t hl2
        refine h4 a ?_ b c t hl2
        rw [List.getLast?_cons_cons]
        exact ha
    refine chain3_cons_build hrec ?_
    intro b c t heq
    cases t1 with
    | nil =>
      injection heq with hb heq
      cases hb
      cases l2 with
      | nil => simp at heq
      | cons c2 t2 =>
        injection heq with hc heq
        cases hc
        exact h3 y z rfl c rfl
    | cons w t2 =>
      injection heq with hb heq
      cases hb
      injection heq with hc heq
      cases hc
      exact h1.1

theorem edgeSupport_reverse {q : R × R} {st : List (R × R)} :
    EdgeSupport q st.reverse ↔ StackSupport q st := by
  show List.Chain' _ st.reverse ↔ _
  rw [List.chain'_reverse]
  exact Iff.rfl

theorem chainASC_reverse {st : List (R × R)} :
    List.Chain' ptLT st.reverse ↔ List.Chain' (fun a b => ptLT b a) st := by
  rw [List.chain'_reverse]
  exact Iff.rfl

theorem convexStack_reverse {st : List (R × R)} :
    Turns st.reverse ↔ ConvexStack st :=
  chain3_reverse st

end Chain3More

section InvariantHelpers

variable {R : Type} [LinearOrderedCommRing R]

theorem cross_self13 (o a : R × R) : cross o a o = 0 := by
  simp only [cross]; ring

theorem cross2_anti (u v : R × R) : cross2 u v = -cross2 v u := by
  simp only [cross2]; ring

theorem pairwise_rel_head {proc : List (R × R)} (h : List.Chain' ptLT proc) {c : R × R}
    (hc : proc.head? = some c) : ∀ q ∈ proc, ptLE c q := by
  intro q hq
  cases proc with
  | nil => cases hq
  | cons a t =>
    injection hc with hc
    rcases List.mem_cons.mp hq with he | ht
    · rw [he, ← hc]
      exact ptLE_refl a
    · rw [← hc]
      have hpw : List.Pairwise ptLT (a :: t) := List.chain'_iff_pairwise.mp h
      exact ptLE_of_ptLT (List.rel_of_pairwise_cons hpw ht)

theorem sorted_ptLE_getLast {proc : List (R × R)} (h : List.Chain' ptLT proc) {c : R × R}
    (hc : proc.getLast? = some c) : ∀ q ∈ proc, ptLE q c := fun q hq =>
  pairwise_rel_getLast ((List.chain'_iff_pairwise.mp h).imp ptLE_of_ptLT) hc q hq

theorem sorted_head_getLast_eq {proc : List (R × R)} (h : List.Chain' ptLT proc)
    {c : R × R} (h1 : proc.head? = some c) (h2 : proc.getLast? = some c) : proc = [c] := by
  cases proc with
  | nil => cases h1
  | cons a t =>
    injection h1 with h1
    cases t with
    | nil => simp [h1]
    | cons b t2 =>
      exfalso
      rw [List.getLast?_cons_cons] at h2
      have hmem : c ∈ b :: t2 := by
        rcases List.mem_getLast?_eq_getLast h2 with ⟨hne, hce⟩
        exact hce ▸ List.getLast_mem hne
      have hpw : List.Pairwise ptLT (a :: b :: t2) := List.chain'_iff_pairwise.mp h
      have hac := List.rel_of_pairwise_cons hpw hmem
      rw [h1] at hac
      exact ptLT_irrefl c hac

theorem popWhile_eq_self_exit {p t1 t2 : R × R} {r : List (R × R)}
    (h : popWhile p (t1 :: t2 :: r) = t1 :: t2 :: r) : 0 < cross t2 t1 p := by
  by_contra hcon
  push_neg at hcon
  rw [popWhile, if_pos hcon] at h
  have hlen := congrArg List.length h
  rw [List.length_cons, List.length_cons] at hlen
  have hs := List.IsSuffix.length_le (popWhile_suffix p (t2 :: r))
  rw [List.length_cons] at hs
  omega

end InvariantHelpers

section SupportMaintain

variable {R : Type} [LinearOrderedCommRing R]

theorem ptLE_cases {p q : R × R} (h : ptLE p q) : ptLT p q ∨ p = q := by
  rcases h with h | ⟨e, h2⟩
  · exact Or.inl (Or.inl h)
  · rcases lt_or_eq_of_le h2 with h3 | h3
    · exact Or.inl (Or.inr ⟨e, h3⟩)
    · exact Or.inr (Prod.ext e h3)

theorem vsub_self_pt (a : R × R) : vsub a a = ((0 : R), (0 : R)) := by
  simp [vsub]

theorem stackSupport_self_of_exit {p : R × R} :
    ∀ (st2 : List (R × R)), ConvexStack st2 →
      List.Chain' (fun a b => ptLT b a) st2 → (∀ x ∈ st2, ptLT x p) →
      (∀ t1 t2 r, st2 = t1 :: t2 :: r → 0 < cross t2 t1 p) → StackSupport p st2
  | [], _, _, _, _ => List.chain'_nil
  | [t], _, _, _, _ => List.chain'_singleton t
  | t1 :: t2 :: r, hconv, hdesc, hlt, hexit => by
    rw [StackSupport, List.chain'_cons]
    refine ⟨(hexit t1 t2 r rfl).le, ?_⟩
    show StackSupport p (t2 :: r)
    refine stackSupport_self_of_exit (t2 :: r) (chain3_tail hconv) hdesc.tail
      (fun x hx => hlt x (List.mem_cons_of_mem t1 hx)) ?_
    intro s1 s2 r2 heq
    injection heq with he1 he2
    subst he1
    subst he2
    have hturn : 0 < cross s2 t2 t1 := hconv.1
    have hex : 0 < cross t2 t1 p := hexit t1 t2 (s2 :: r2) rfl
    have ho1 : ptLT t2 t1 := (List.chain'_cons.mp hdesc).1
    have ho2 : ptLT s2 t2 := (List.chain'_cons.mp hdesc.tail).1
    have ho3 : ptLT t2 p := hlt t2 (List.mem_cons_of_mem t1 (List.mem_cons_self t2 _))
    rw [cross_vec2] at hturn
    rw [cross_vec] at hex
    rw [cross_vec2]
    exact vecTrans_pos (vecPos_vsub_of_ptLT ho2) (vecPos_vsub_of_ptLT ho1)
      (vecPos_vsub_of_ptLT ho3) hturn hex

theorem support_new_edge {proc st : List (R × R)} {p q : R × R}
    (hproc : List.Chain' ptLT proc) (hinv : StackInv proc st)
    (hlt : ∀ x ∈ proc, ptLT x p) (hq : q ∈ proc) {t : R × R}
    (ht : (popWhile p st).head? = some t) : 0 ≤ cross t p q := by
  have hsup := hinv.support q hq
  rcases popWhile_cases p st with he | ⟨c, t0, r, hsuf, he, hcc⟩
  · -- no pop: the previous top survives
    rw [he] at ht
    cases hst : st with
    | nil => exact absurd hst hinv.ne
    | cons s1 rest =>
      rw [hst] at ht
      injection ht with ht
      cases rest with
      | nil =>
        -- the stack is the single bottom point, so proc = [t] and q = t
        have hb := hinv.bottom
        have htp := hinv.top
        rw [hst, ht] at hb htp
        have hproc1 : proc = [t] :=
          sorted_head_getLast_eq hproc (by rw [← hb]; rfl) (by rw [← htp]; rfl)
        rw [hproc1] at hq
        have hqt : q = t := by simpa using hq
        rw [hqt, cross_self13]
      | cons s2 rest2 =>
        -- no pop with at least two entries: exit condition at the old top,
        -- which is the maximum of the processed points
        rw [ht] at hst
        rw [hst] at he
        have hexit := popWhile_eq_self_exit he
        have hdesc := hinv.desc
        rw [hst] at hdesc
        have ho1 : ptLT s2 t := (List.chain'_cons.mp hdesc).1
        have htmax : ptLE q t := by
          refine sorted_ptLE_getLast hproc ?_ q hq
          rw [← hinv.top, hst]
          rfl
        have hs : 0 ≤ cross s2 t q := by
          rw [hst] at hsup
          exact (List.chain'_cons.mp hsup).1
        have htmem : t ∈ proc := hinv.subset t (by rw [hst]; exact List.mem_cons_self t _)
        rw [cross_vec2] at hexit
        rw [cross_vec2] at hs
        rw [cross_vec]
        refine support_top (vecPos_vsub_of_ptLT ho1) ?_
          (vecPos_vsub_of_ptLT (hlt t htmem)) hs hexit
        rcases ptLE_cases htmax with hlt2 | heq
        · exact Or.inl (vecNeg_vsub_of_ptLT hlt2)
        · right
          rw [heq, vsub_self_pt]
  · -- at least one pop happened; c is the last popped point, t0 the new top
    have hte : t = t0 := by
      rw [he] at ht
      injection ht with ht
      exact ht.symm
    rw [hte]
    have hdesc_ct : ptLT t0 c := by
      have := hinv.desc.suffix hsuf
      exact (List.chain'_cons.mp this).1
    have hsupc : StackSupport q (c :: t0 :: r) := List.Chain'.suffix hsup hsuf
    have hs_ct : 0 ≤ cross t0 c q := (List.chain'_cons.mp hsupc).1
    have ht_mem : t0 ∈ proc :=
      hinv.subset t0 (hsuf.subset (List.mem_cons_of_mem c (List.mem_cons_self t0 r)))
    cases r with
    | nil =>
      -- popped all the way down to the bottom point t0
      have hbot : proc.head? = some t0 := by
        rw [← hinv.bottom, ← popWhile_getLast? p st, he]
        rfl
      have hmin : ptLE t0 q := pairwise_rel_head hproc hbot q hq
      rw [cross_vec] at hcc
      rw [cross_vec] at hs_ct
      rw [cross_vec]
      refine support_bot (vecPos_vsub_of_ptLT hdesc_ct) ?_
        (vecPos_vsub_of_ptLT (hlt t0 ht_mem)) hs_ct hcc
      rcases ptLE_cases hmin with hlt2 | heq
      · exact Or.inl (vecPos_vsub_of_ptLT hlt2)
      · right
        rw [← heq, vsub_self_pt]
    | cons r0 r2 =>
      -- cone argument at the new top t0, between the surviving edge and the
      -- last popped edge
      have hexit : 0 < cross r0 t0 p := popWhile_exit_pos st he
      have hconv3 : ConvexStack (c :: t0 :: r0 :: r2) := chain3_suffix hsuf hinv.convex
      have hconv : 0 < cross r0 t0 c := hconv3.1
      have hs2 : 0 ≤ cross r0 t0 q := (List.chain'_cons.mp (List.chain'_cons.mp hsupc).2).1
      have hd2 : 0 ≤ cross2 (vsub p t0) (vsub c t0) := by
        rw [cross2_anti, ← cross_vec]
        linarith
      rw [cross_vec2] at hconv
      rw [cross_vec2] at hexit
      rw [cross_vec2] at hs2
      rw [cross_vec] at hs_ct
      rw [cross_vec]
      exact cone hconv hexit hd2 hs2 hs_ct

end SupportMaintain

section Soundness

variable {R : Type} [LinearOrderedCommRing R]

theorem stackInv_step {proc st : List (R × R)} {p : R × R}
    (hproc : List.Chain' ptLT proc) (hinv : StackInv proc st)
    (hlt : ∀ q ∈ proc, ptLT q p) : StackInv (proc ++ [p]) (chainStep st p) := by
  have hne2 : popWhile p st ≠ [] := popWhile_ne_nil p st hinv.ne
  have hsuf : popWhile p st <:+ st := popWhile_suffix p st
  have hsubset2 : ∀ x ∈ popWhile p st, x ∈ proc := fun x hx =>
    hinv.subset x (hsuf.subset hx)
  have hprocne : proc ≠ [] := by
    intro h
    cases hst : st with
    | nil => exact hinv.ne hst
    | cons a t =>
      have hb := hinv.bottom
      rw [hst, h] at hb
      simp at hb
  obtain ⟨a0, t0, hat⟩ : ∃ a0 t0, popWhile p st = a0 :: t0 := by
    cases h : popWhile p st with
    | nil => exact absurd h hne2
    | cons a t => exact ⟨a, t, rfl⟩
  refine ⟨?_, ?_, ?_, ?_, ?_, ?_, ?_⟩
  · exact List.cons_ne_nil p _
  · show (p :: popWhile p st).getLast? = _
    rw [hat, List.getLast?_cons_cons, ← hat, popWhile_getLast? p st, hinv.bottom,
      List.head?_append_of_ne_nil proc hprocne]
  · show (p :: popWhile p st).head? = _
    rw [List.getLast?_append_cons]
    rfl
  · intro x hx
    rcases List.mem_cons.mp hx with he | hm
    · exact List.mem_append.mpr (Or.inr (he ▸ List.mem_cons_self p []))
    · exact List.mem_append.mpr (Or.inl (hsubset2 x hm))
  · show List.Chain' _ (p :: popWhile p st)
    rw [List.chain'_cons']
    refine ⟨?_, hinv.desc.suffix hsuf⟩
    intro y hy
    rw [hat] at hy
    injection hy with hy
    refine hy ▸ hlt a0 (hsubset2 a0 ?_)
    rw [hat]
    exact List.mem_cons_self a0 t0
  · show ConvexStack (p :: popWhile p st)
    refine chain3_cons_build (chain3_suffix hsuf hinv.convex) ?_
    intro b c t hbc
    exact popWhile_exit_pos st hbc
  · intro q hq
    show StackSupport q (p :: popWhile p st)
    rw [StackSupport, List.chain'_cons']
    rcases List.mem_append.mp hq with hqp | hqp
    · refine ⟨?_, List.Chain'.suffix (hinv.support q hqp) hsuf⟩
      intro y hy
      exact support_new_edge hproc hinv hlt hqp hy
    · have hqe : q = p := by simpa using hqp
      refine ⟨?_, ?_⟩
      · intro y hy
        rw [hqe, cross_self23]
      · rw [hqe]
        exact stackSupport_self_of_exit (popWhile p st)
          (chain3_suffix hsuf hinv.convex) (hinv.desc.suffix hsuf)
          (fun x hx => hlt x (hsubset2 x hx))
          (fun t1 t2 r h => popWhile_exit_pos st h)

theorem stackInv_fold :
    ∀ (rest proc st : List (R × R)), StackInv proc st →
      List.Chain' ptLT (proc ++ rest) → StackInv (proc ++ rest) (rest.foldl chainStep st)
  | [], proc, st, hinv, _ => by simpa using hinv
  | r :: rest, proc, st, hinv, hchain => by
    have hproc : List.Chain' ptLT proc := hchain.prefix (List.prefix_append proc _)
    have hlt : ∀ q ∈ proc, ptLT q r := by
      have hpw := List.chain'_iff_pairwise.mp hchain
      intro q hq
      exact (List.pairwise_append.mp hpw).2.2 q hq r (List.mem_cons_self r rest)
    have hstep := stackInv_step hproc hinv hlt
    have heq : proc ++ r :: rest = (proc ++ [r]) ++ rest := by simp
    rw [List.foldl_cons, heq]
    exact stackInv_fold rest (proc ++ [r]) (chainStep st r) hstep (heq ▸ hchain)

theorem stackInv_lowerRev {pts : List (R × R)} (hs : List.Chain' ptLT pts)
    (hne : pts ≠ []) : StackInv pts (lowerRev pts) := by
  cases pts with
  | nil => exact absurd rfl hne
  | cons p0 rest =>
    have h0 : StackInv [p0] [p0] := by
      refine ⟨List.cons_ne_nil p0 [], rfl, rfl, fun x hx => hx, ?_, trivial, ?_⟩
      · exact List.chain'_singleton p0
      · intro q _
        exact List.chain'_singleton p0
    rw [lowerRev, List.foldl_cons]
    have hc : chainStep [] p0 = [p0] := rfl
    rw [hc]
    have := stackInv_fold rest [p0] [p0] h0 (by simpa using hs)
    simpa using this

/-- Soundness of the chain construction: over a strictly sorted point list the
built chain starts at the first point, ends at the last, consists of input
points, is strictly sorted, makes only strict left turns, and every input
point lies on or to the left of each of its edges. -/
theorem buildChain_sound {pts : List (R × R)} (hs : List.Chain' ptLT pts)
    (hne : pts ≠ []) :
    (buildChain pts).head? = pts.head? ∧ (buildChain pts).getLast? = pts.getLast? ∧
      (∀ x ∈ buildChain pts, x ∈ pts) ∧ List.Chain' ptLT (buildChain pts) ∧
      Turns (buildChain pts) ∧ ∀ q ∈ pts, EdgeSupport q (buildChain pts) := by
  have hinv := stackInv_lowerRev hs hne
  refine ⟨?_, ?_, ?_, ?_, ?_, ?_⟩
  · rw [buildChain, List.head?_reverse, hinv.bottom]
  · rw [buildChain, List.getLast?_eq_head?_reverse, List.reverse_reverse, hinv.top]
  · exact fun x hx => mem_buildChain hx
  · rw [buildChain, chainASC_reverse]
    exact hinv.desc
  · rw [buildChain, convexStack_reverse]
    exact hinv.convex
  · intro q hq
    rw [buildChain, edgeSupport_reverse]
    exact hinv.support q hq

end Soundness

section NegTransfer

variable {R : Type} [LinearOrderedCommRing R]

theorem negPt_invol (p : R × R) : negPt (negPt p) = p := by
  simp [negPt]

theorem cross_negPt (o a b : R × R) : cross (negPt o) (negPt a) (negPt b) = cross o a b := by
  simp only [cross, negPt]
  ring

theorem ptLT_negPt {a b : R × R} : ptLT (negPt b) (negPt a) ↔ ptLT a b := by
  simp only [ptLT, negPt]
  constructor
  · rintro (h | ⟨he, h⟩)
    · exact Or.inl (by linarith)
    · exact Or.inr ⟨by linarith, by linarith⟩
  · rintro (h | ⟨he, h⟩)
    · exact Or.inl (by linarith)
    · exact Or.inr ⟨by rw [he], by linarith⟩

theorem popWhile_negPt (p : R × R) :
    ∀ st : List (R × R), popWhile (negPt p) (st.map negPt) = (popWhile p st).map negPt
  | [] => rfl
  | [t] => rfl
  | t1 :: t2 :: r => by
    simp only [List.map_cons]
    rw [popWhile, popWhile, cross_negPt]
    split
    · have := popWhile_negPt p (t2 :: r)
      simpa using this
    · simp

theorem chainStep_negPt (st : List (R × R)) (p : R × R) :
    chainStep (st.map negPt) (negPt p) = (chainStep st p).map negPt := by
  rw [chainStep, chainStep, popWhile_negPt]
  simp

theorem foldl_chainStep_negPt :
    ∀ (pts st : List (R × R)),
      (pts.map negPt).foldl chainStep (st.map negPt) = (pts.foldl chainStep st).map negPt
  | [], _ => rfl
  | a :: t, st => by
    simp only [List.map_cons, List.foldl_cons]
    rw [chainStep_negPt]
    exact foldl_chainStep_negPt t (chainStep st a)

theorem buildChain_negPt (pts : List (R × R)) :
    buildChain (pts.map negPt) = (buildChain pts).map negPt := by
  rw [buildChain, buildChain, lowerRev, lowerRev]
  have h0 : ([] : List (R × R)) = List.map negPt [] := rfl
  rw [h0, foldl_chainStep_negPt]
  simp

theorem chain3_map_negPt {P : (R × R) → (R × R) → (R × R) → Prop} :
    ∀ l : List (R × R), Chain3 P (l.map negPt) ↔
      Chain3 (fun a b c => P (negPt a) (negPt b) (negPt c)) l
  | [] => Iff.rfl
  | [_] => Iff.rfl
  | [_, _] => Iff.rfl
  | a :: b :: c :: t => by
    simp only [List.map_cons]
    rw [chain3_cons3]
    have ih := chain3_map_negPt (P := P) (b :: c :: t)
    simp only [List.map_cons] at ih
    rw [ih]
    exact Iff.rfl

theorem chain3_iff_of {P Q : (R × R) → (R × R) → (R × R) → Prop}
    (h : ∀ a b c, P a b c ↔ Q a b c) : ∀ l : List (R × R), Chain3 P l ↔ Chain3 Q l
  | [] => Iff.rfl
  | [_] => Iff.rfl
  | [_, _] => Iff.rfl
  | a :: b :: c :: t => by
    rw [chain3_cons3, chain3_cons3, h, chain3_iff_of h (b :: c :: t)]

theorem turns_negPt {l : List (R × R)} : Turns (l.map negPt) ↔ Turns l := by
  rw [Turns, chain3_map_negPt]
  exact chain3_iff_of (fun a b c => by rw [cross_negPt]) l

theorem edgeSupport_negPt {q : R × R} {l : List (R × R)} :
    EdgeSupport (negPt q) (l.map negPt) ↔ EdgeSupport q l := by
  rw [EdgeSupport, EdgeSupport, List.chain'_map]
  constructor
  · intro h
    exact h.imp (fun a b hab => by rwa [cross_negPt] at hab)
  · intro h
    exact h.imp (fun a b hab => by rwa [cross_negPt])

theorem chainDESC_map_negPt {l : List (R × R)} :
    List.Chain' ptLT (l.map negPt) ↔ List.Chain' (fun a b => ptLT b a) l := by
  rw [List.chain'_map]
  constructor
  · intro h
    exact h.imp (fun a b hab => ptLT_negPt.mp hab)
  · intro h
    exact h.imp (fun a b hab => ptLT_negPt.mpr hab)

theorem mem_map_negPt {x : R × R} {l : List (R × R)} :
    x ∈ l.map negPt ↔ negPt x ∈ l := by
  constructor
  · intro h
    rcases List.mem_map.mp h with ⟨y, hy, he⟩
    rw [← he, negPt_invol]
    exact hy
  · intro h
    have := List.mem_map_of_mem negPt h
    rwa [negPt_invol] at this

/-- Soundness of the chain construction over a strictly descending point
list (the upper chain): symmetric to `buildChain_sound` by negating all
points. -/
theorem buildChain_sound_desc {pts : List (R × R)}
    (hs : List.Chain' (fun a b => ptLT b a) pts) (hne : pts ≠ []) :
    (buildChain pts).head? = pts.head? ∧ (buildChain pts).getLast? = pts.getLast? ∧
      (∀ x ∈ buildChain pts, x ∈ pts) ∧
      List.Chain' (fun a b => ptLT b a) (buildChain pts) ∧
      Turns (buildChain pts) ∧ ∀ q ∈ pts, EdgeSupport q (buildChain pts) := by
  have hinj : Function.Injective (negPt (R := R)) := fun a b h => by
    have h2 := congrArg negPt h
    rwa [negPt_invol, negPt_invol] at h2
  have hs2 : List.Chain' ptLT (pts.map negPt) := chainDESC_map_negPt.mpr hs
  have hne2 : pts.map negPt ≠ [] := fun h => hne (List.map_eq_nil_iff.mp h)
  obtain ⟨h1, h2, h3, h4, h5, h6⟩ := buildChain_sound hs2 hne2
  rw [buildChain_negPt] at h1 h2 h3 h4 h5 h6
  refine ⟨?_, ?_, ?_, ?_, ?_, ?_⟩
  · rw [List.head?_map, List.head?_map] at h1
    exact Option.map_injective hinj h1
  · rw [List.getLast?_map, List.getLast?_map] at h2
    exact Option.map_injective hinj h2
  · intro x hx
    have h7 := h3 (negPt x) (by
      rw [mem_map_negPt, negPt_invol]
      exact hx)
    rw [mem_map_negPt, negPt_invol] at h7
    exact h7
  · exact chainDESC_map_negPt.mp h4
  · exact turns_negPt.mp h5
  · intro q hq
    have h7 := h6 (negPt q) (List.mem_map_of_mem negPt hq)
    rwa [edgeSupport_negPt] at h7

end NegTransfer

section Uniqueness

variable {R : Type} [LinearOrderedCommRing R]

theorem vsub_vsub (a b c : R × R) : vsub (vsub a c) (vsub b c) = vsub a b := by
  simp [vsub]

theorem unique_step_contra {T : List (R × R)} {c a1 a2 : R × R} {t1 t2 : List (R × R)}
    (hsup1 : ∀ q ∈ T, EdgeSupport q (c :: a1 :: t1))
    (hsup2 : ∀ q ∈ T, EdgeSupport q (c :: a2 :: t2))
    (hmem1 : ∀ x ∈ c :: a1 :: t1, x ∈ T) (hmem2 : ∀ x ∈ c :: a2 :: t2, x ∈ T)
    (hs1 : List.Chain' ptLT (c :: a1 :: t1)) (hs2 : List.Chain' ptLT (c :: a2 :: t2))
    (ht1 : Turns (c :: a1 :: t1))
    (hlast : (c :: a1 :: t1).getLast? = (c :: a2 :: t2).getLast?)
    (HLT : ptLT a1 a2) : False := by
  have ha1T : a1 ∈ T := hmem1 a1 (by simp)
  have ha2T : a2 ∈ T := hmem2 a2 (by simp)
  have h1 : 0 ≤ cross c a2 a1 := (List.chain'_cons.mp (hsup2 a1 ha1T)).1
  have h2 : 0 ≤ cross c a1 a2 := (List.chain'_cons.mp (hsup1 a2 ha2T)).1
  have hcol : cross c a1 a2 = 0 := by
    rw [cross_swap23] at h1
    linarith
  obtain ⟨M, hM⟩ : ∃ M, (c :: a2 :: t2).getLast? = some M :=
    ⟨(c :: a2 :: t2).getLast (List.cons_ne_nil _ _),
      List.getLast?_eq_getLast_of_ne_nil _⟩
  have ha2M : ptLE a2 M := sorted_ptLE_getLast hs2 hM a2 (by simp)
  have ha1M : ptLT a1 M := by
    rcases ptLE_cases ha2M with h | h
    · exact ptLT_trans HLT h
    · exact h ▸ HLT
  cases t1 with
  | nil =>
    rw [hM] at hlast
    have : a1 = M := by
      have := hlast
      simp at this
      exact this
    exact ptLT_irrefl a1 (this ▸ ha1M)
  | cons b1 t1b =>
    have hturn : 0 < cross c a1 b1 := ht1.1
    have hsupp : 0 ≤ cross a1 b1 a2 :=
      (List.chain'_cons.mp (List.Chain'.tail (hsup1 a2 ha2T))).1
    have hca1 : ptLT c a1 := (List.chain'_cons.mp hs1).1
    rw [cross_vec] at hcol
    rw [cross_vec2] at hturn
    rw [cross_vec] at hsupp
    refine collinear_contra_vec (vecPos_vsub_of_ptLT hca1) ?_ hcol hturn ?_
    · rw [vsub_vsub]
      exact vecPos_vsub_of_ptLT HLT
    · rw [vsub_vsub]
      exact hsupp

theorem chain_unique {T : List (R × R)} :
    ∀ (L1 L2 : List (R × R)),
      (∀ q ∈ T, EdgeSupport q L1) → (∀ q ∈ T, EdgeSupport q L2) →
      (∀ x ∈ L1, x ∈ T) → (∀ x ∈ L2, x ∈ T) →
      List.Chain' ptLT L1 → List.Chain' ptLT L2 → Turns L1 → Turns L2 →
      L1.head? = L2.head? → L1.getLast? = L2.getLast? → L1 = L2
  | [], [], _, _, _, _, _, _, _, _, _, _ => rfl
  | [], c2 :: l2, _, _, _, _, _, _, _, _, hhead, _ => by simp at hhead
  | c1 :: l1, [], _, _, _, _, _, _, _, _, hhead, _ => by simp at hhead
  | c1 :: l1, c2 :: l2, hsup1, hsup2, hmem1, hmem2, hs1, hs2, ht1, ht2, hhead, hlast => by
    have hc : c1 = c2 := by
      injection hhead
    subst hc
    cases l1 with
    | nil =>
      have hL2 : c1 :: l2 = [c1] := by
        refine sorted_head_getLast_eq hs2 rfl ?_
        rw [← hlast]
        rfl
      rw [hL2]
    | cons a1 t1 =>
      cases l2 with
      | nil =>
        have hL1 : c1 :: a1 :: t1 = [c1] := by
          refine sorted_head_getLast_eq hs1 rfl ?_
          rw [hlast]
          rfl
        exact hL1
      | cons a2 t2 =>
        have ha : a1 = a2 := by
          rcases ptLE_total a1 a2 with h | h
          · rcases ptLE_cases h with h | h
            · exact absurd (unique_step_contra hsup1 hsup2 hmem1 hmem2 hs1 hs2 ht1 hlast h)
                (fun f => f)
            · exact h
          · rcases ptLE_cases h with h | h
            · exact absurd (unique_step_contra hsup2 hsup1 hmem2 hmem1 hs2 hs1 ht2 hlast.symm h)
                (fun f => f)
            · exact h.symm
        subst ha
        have htail := chain_unique (a1 :: t1) (a1 :: t2)
          (fun q hq => List.Chain'.tail (hsup1 q hq))
          (fun q hq => List.Chain'.tail (hsup2 q hq))
          (fun x hx => hmem1 x (List.mem_cons_of_mem c1 hx))
          (fun x hx => hmem2 x (List.mem_cons_of_mem c1 hx))
          hs1.tail hs2.tail (chain3_tail ht1) (chain3_tail ht2) rfl
          (by
            rw [← List.getLast?_cons_cons (l := t1) (a := c1), hlast,
              List.getLast?_cons_cons])
        rw [htail]

end Uniqueness

section Chord

variable {R : Type} [LinearOrderedCommRing R]

theorem mem_of_getLast?_eq {α : Type} {l : List α} {M : α} (h : l.getLast? = some M) :
    M ∈ l := by
  cases l with
  | nil => exact absurd h (by simp)
  | cons a t =>
    have h3 := List.getLast?_eq_getLast_of_ne_nil (List.cons_ne_nil a t)
    rw [h] at h3
    injection h3 with h3
    rw [h3]
    exact List.getLast_mem (List.cons_ne_nil a t)

theorem cross2_split (o a b w : R × R) :
    cross2 (vsub b o) w = cross2 (vsub a o) w + cross2 (vsub b a) w := by
  simp only [cross2, vsub]
  ring

theorem edge_sees_last :
    ∀ (t : List (R × R)) (a b M : R × R), Turns (a :: b :: t) →
      List.Chain' ptLT (a :: b :: t) → (b :: t).getLast? = some M → t ≠ [] →
      0 < cross a b M
  | [], _, _, _, _, _, _, hne => absurd rfl hne
  | [c], a, b, M, hT, _, hM, _ => by
    have hMc : M = c := by
      simp at hM
      exact hM.symm
    exact hMc ▸ hT.1
  | c :: c2 :: t2, a, b, M, hT, hs, hM, _ => by
    have hM2 : (c :: c2 :: t2).getLast? = some M := by
      rw [List.getLast?_cons_cons] at hM
      exact hM
    have ih : 0 < cross b c M :=
      edge_sees_last (c2 :: t2) b c M (chain3_tail hT) hs.tail hM2
        (List.cons_ne_nil c2 t2)
    have hturn : 0 < cross a b c := hT.1
    have hab : ptLT a b := (List.chain'_cons.mp hs).1
    have hbc : ptLT b c := (List.chain'_cons.mp hs.tail).1
    have hbM : ptLT b M := by
      have hpw : List.Pairwise ptLT (b :: c :: c2 :: t2) :=
        List.chain'_iff_pairwise.mp hs.tail
      exact List.rel_of_pairwise_cons hpw (mem_of_getLast?_eq hM2)
    rw [cross_vec2] at hturn
    rw [cross_vec] at ih
    rw [cross_vec2]
    exact vecTrans_pos (vecPos_vsub_of_ptLT hab) (vecPos_vsub_of_ptLT hbc)
      (vecPos_vsub_of_ptLT hbM) hturn ih

theorem chord_walk :
    ∀ (rest : List (R × R)) (p c0 M : R × R), Turns (p :: rest) →
      List.Chain' ptLT (p :: rest) → ptLT c0 p →
      (p :: rest).getLast? = some M →
      (∀ q, rest.head? = some q → 0 < cross c0 p q) →
      0 < cross c0 p M →
      ∀ x ∈ p :: rest, x ≠ M → 0 < cross c0 x M
  | [], p, c0, M, _, _, _, hM, _, _ => by
    intro x hx hxM
    have hpM : p = M := by simpa using hM
    have hxp : x = p := by simpa using hx
    exact absurd (hxp.trans hpM) hxM
  | q :: rest2, p, c0, M, hT, hs, hc0p, hM, hCpq, hCM => by
    intro x hx hxM
    have hMq : (q :: rest2).getLast? = some M := by
      rw [List.getLast?_cons_cons] at hM
      exact hM
    rcases List.mem_cons.mp hx with he | hx2
    · exact he ▸ hCM
    · cases rest2 with
      | nil =>
        have hqM : q = M := by simpa using hMq
        have hxq : x = q := by simpa using hx2
        exact absurd (hxq.trans hqM) hxM
      | cons r rest3 =>
        have hMr : (r :: rest3).getLast? = some M := by
          rw [List.getLast?_cons_cons] at hMq
          exact hMq
        have hpq : ptLT p q := (List.chain'_cons.mp hs).1
        have hqr : ptLT q r := (List.chain'_cons.mp hs.tail).1
        have hCpqv : 0 < cross c0 p q := hCpq q rfl
        have hqM : ptLT q M := by
          have hpw : List.Pairwise ptLT (q :: r :: rest3) :=
            List.chain'_iff_pairwise.mp hs.tail
          exact List.rel_of_pairwise_cons hpw (mem_of_getLast?_eq hMr)
        have hesl : 0 < cross p q M :=
          edge_sees_last (r :: rest3) p q M hT hs hMq (List.cons_ne_nil r rest3)
        have hCM2 : 0 < cross c0 q M := by
          have h1 : 0 < cross2 (vsub p c0) (vsub q p) := by
            rw [← cross_vec2]
            exact hCpqv
          have h2 : 0 < cross2 (vsub q p) (vsub M q) := by
            rw [← cross_vec2]
            exact hesl
          have hVw : 0 < cross2 (vsub p c0) (vsub M q) :=
            vecTrans_pos (vecPos_vsub_of_ptLT hc0p) (vecPos_vsub_of_ptLT hpq)
              (vecPos_vsub_of_ptLT hqM) h1 h2
          rw [cross_vec2, cross2_split c0 p q (vsub M q)]
          linarith
        have hCpq2 : ∀ r2, (r :: rest3).head? = some r2 → 0 < cross c0 q r2 := by
          intro r2 hr2
          injection hr2 with hr2
          rw [← hr2]
          have h1 : 0 < cross2 (vsub p c0) (vsub q p) := by
            rw [← cross_vec2]
            exact hCpqv
          have h2 : 0 < cross2 (vsub q p) (vsub r q) := by
            rw [← cross_vec2]
            exact hT.1
          have hVe : 0 < cross2 (vsub p c0) (vsub r q) :=
            vecTrans_pos (vecPos_vsub_of_ptLT hc0p) (vecPos_vsub_of_ptLT hpq)
              (vecPos_vsub_of_ptLT hqr) h1 h2
          rw [cross_vec2, cross2_split c0 p q (vsub r q)]
          linarith
        exact chord_walk (r :: rest3) q c0 M (chain3_tail hT) hs.tail
          (ptLT_trans hc0p hpq) hMq hCpq2 hCM2 x hx2 hxM

theorem chord {L : List (R × R)} {c0 M : R × R} (hT : Turns L)
    (hs : List.Chain' ptLT L) (hc0 : L.head? = some c0) (hM : L.getLast? = some M) :
    ∀ x ∈ L, x ≠ c0 → x ≠ M → 0 < cross c0 x M := by
  intro x hx hxc0 hxM
  cases L with
  | nil => cases hx
  | cons a l2 =>
    injection hc0 with hc0
    subst hc0
    cases l2 with
    | nil =>
      have : x = a := by simpa using hx
      exact absurd this hxc0
    | cons a1 t =>
      have hMt : (a1 :: t).getLast? = some M := by
        rw [List.getLast?_cons_cons] at hM
        exact hM
      have hx2 : x ∈ a1 :: t := by
        rcases List.mem_cons.mp hx with he | h2
        · exact absurd he hxc0
        · exact h2
      cases t with
      | nil =>
        have hMa : a1 = M := by simpa using hMt
        have : x = a1 := by simpa using hx2
        exact absurd (this.trans hMa) hxM
      | cons b1 t2 =>
        refine chord_walk (b1 :: t2) a1 a M (chain3_tail hT) hs.tail
          ((List.chain'_cons.mp hs).1) hMt ?_ ?_ x hx2 hxM
        · intro q hq
          injection hq with hq
          rw [← hq]
          exact hT.1
        · exact edge_sees_last (b1 :: t2) a a1 M hT hs hMt (List.cons_ne_nil b1 t2)

end Chord

section HullAnatomy

variable {R : Type} [LinearOrderedCommRing R]

theorem cross_swap12 (o a b : R × R) : cross o a b = -cross a o b := by
  simp only [cross]
  ring

theorem two_le_length_of_head_getLast {α : Type} {L : List α} {a b : α}
    (ha : L.head? = some a) (hb : L.getLast? = some b) (hne : a ≠ b) : 2 ≤ L.length := by
  cases L with
  | nil => cases ha
  | cons x t =>
    cases t with
    | nil =>
      injection ha with ha
      have hb2 : b = x := by simpa using hb.symm
      exact absurd (ha.symm.trans hb2.symm) hne
    | cons y t2 => simp

theorem sorted_head_lt_getLast {pts : List (R × R)} (hs : List.Chain' ptLT pts)
    (h2 : 2 ≤ pts.length) {a b : R × R} (ha : pts.head? = some a)
    (hb : pts.getLast? = some b) : ptLT a b := by
  cases pts with
  | nil => cases ha
  | cons x t =>
    injection ha with ha
    cases t with
    | nil => simp at h2
    | cons y t2 =>
      have hbt : (y :: t2).getLast? = some b := by
        rw [List.getLast?_cons_cons] at hb
        exact hb
      have hpw : List.Pairwise ptLT (x :: y :: t2) := List.chain'_iff_pairwise.mp hs
      have := List.rel_of_pairwise_cons hpw (mem_of_getLast?_eq hbt)
      rw [← ha]
      exact this

theorem desc_getLast_lt_head {pts : List (R × R)}
    (hs : List.Chain' (fun a b => ptLT b a) pts) (h2 : 2 ≤ pts.length) {a b : R × R}
    (ha : pts.head? = some a) (hb : pts.getLast? = some b) : ptLT b a := by
  cases pts with
  | nil => cases ha
  | cons x t =>
    injection ha with ha
    cases t with
    | nil => simp at h2
    | cons y t2 =>
      have hbt : (y :: t2).getLast? = some b := by
        rw [List.getLast?_cons_cons] at hb
        exact hb
      haveI : IsTrans (R × R) (fun a b => ptLT b a) :=
        ⟨fun _ _ _ h1 h2 => ptLT_trans h2 h1⟩
      have hpw : List.Pairwise (fun a b => ptLT b a) (x :: y :: t2) :=
        List.chain'_iff_pairwise.mp hs
      have := List.rel_of_pairwise_cons hpw (mem_of_getLast?_eq hbt)
      rw [← ha]
      exact this

theorem sortPts_rev_desc (l : List (R × R)) :
    List.Chain' (fun a b => ptLT b a) (sortPts l).reverse := by
  rw [← chainASC_reverse, List.reverse_reverse]
  exact sortPts_chain l

theorem dropLast_head? {α : Type} {L : List α} (h2 : 2 ≤ L.length) :
    L.dropLast.head? = L.head? := by
  cases L with
  | nil => rfl
  | cons x t =>
    cases t with
    | nil => simp at h2
    | cons y t2 => rw [List.dropLast_cons₂]; rfl

theorem dropLast_ne_nil {α : Type} {L : List α} (h2 : 2 ≤ L.length) :
    L.dropLast ≠ [] := by
  have := List.length_dropLast L
  intro h
  rw [h] at this
  simp at this
  omega

/-- The two chain endpoints of the hull construction: the lexicographically
smallest and largest distinct points. -/
theorem hull_anatomy {l : List (R × R)} (hlen : 3 ≤ (sortPts l).length) :
    ∃ c0 m, (sortPts l).head? = some c0 ∧ (sortPts l).getLast? = some m ∧ ptLT c0 m ∧
      (buildChain (sortPts l)).head? = some c0 ∧
      (buildChain (sortPts l)).getLast? = some m ∧
      (buildChain ((sortPts l).reverse)).head? = some m ∧
      (buildChain ((sortPts l).reverse)).getLast? = some c0 ∧
      2 ≤ (buildChain (sortPts l)).length ∧
      2 ≤ (buildChain ((sortPts l).reverse)).length := by
  have hne : sortPts l ≠ [] := by
    intro h
    rw [h] at hlen
    simp at hlen
  obtain ⟨c0, hc0⟩ : ∃ c0, (sortPts l).head? = some c0 := by
    cases h : (sortPts l).head? with
    | none => exact absurd (List.head?_eq_none_iff.mp h) hne
    | some c => exact ⟨c, rfl⟩
  obtain ⟨m, hm⟩ : ∃ m, (sortPts l).getLast? = some m :=
    ⟨(sortPts l).getLast hne, List.getLast?_eq_getLast_of_ne_nil hne⟩
  have hlt : ptLT c0 m :=
    sorted_head_lt_getLast (sortPts_chain l) (by omega) hc0 hm
  obtain ⟨hL1, hL2, _, _, _, _⟩ := buildChain_sound (sortPts_chain l) hne
  have hner : (sortPts l).reverse ≠ [] := by
    intro h
    exact hne (by simpa using congrArg List.reverse h)
  obtain ⟨hU1, hU2, _, _, _, _⟩ := buildChain_sound_desc (sortPts_rev_desc l) hner
  rw [List.head?_reverse] at hU1
  rw [List.getLast?_reverse] at hU2
  refine ⟨c0, m, hc0, hm, hlt, ?_, ?_, ?_, ?_, ?_, ?_⟩
  · rw [hL1, hc0]
  · rw [hL2, hm]
  · rw [hU1, hm]
  · rw [hU2, hc0]
  · refine two_le_length_of_head_getLast (a := c0) (b := m) ?_ ?_ ?_
    · rw [hL1, hc0]
    · rw [hL2, hm]
    · intro h
      exact ptLT_irrefl c0 (h ▸ hlt)
  · refine two_le_length_of_head_getLast (a := m) (b := c0) ?_ ?_ ?_
    · rw [hU1, hm]
    · rw [hU2, hc0]
    · intro h
      exact ptLT_irrefl c0 (h ▸ hlt)

end HullAnatomy

section HullStructure

variable {R : Type} [LinearOrderedCommRing R]

/-- Decomposition of the hull into the two open chains: the lower chain is
`A ++ [m]`, the upper chain is `B ++ [c0]`, and the hull is `A ++ B`. -/
theorem hull_parts {l : List (R × R)} (hlen : 3 ≤ (sortPts l).length) :
    ∃ c0 m A B,
      convex_hull_xy l = A ++ B ∧
      buildChain (sortPts l) = A ++ [m] ∧
      buildChain ((sortPts l).reverse) = B ++ [c0] ∧
      A.head? = some c0 ∧ B.head? = some m ∧
      (sortPts l).head? = some c0 ∧ (sortPts l).getLast? = some m ∧ ptLT c0 m := by
  obtain ⟨c0, m, hc0, hm, hlt, hLh, hLl, hUh, hUl, hL2, hU2⟩ := hull_anatomy hlen
  set lower := buildChain (sortPts l) with hlow
  set upper := buildChain ((sortPts l).reverse) with hup
  have hlne : lower ≠ [] := by
    intro h
    rw [h] at hL2
    simp at hL2
  have hune : upper ≠ [] := by
    intro h
    rw [h] at hU2
    simp at hU2
  have hLlast : lower.getLast hlne = m := by
    have := List.getLast?_eq_getLast_of_ne_nil hlne
    rw [hLl] at this
    exact (Option.some_injective _ this).symm
  have hUlast : upper.getLast hune = c0 := by
    have := List.getLast?_eq_getLast_of_ne_nil hune
    rw [hUl] at this
    exact (Option.some_injective _ this).symm
  refine ⟨c0, m, lower.dropLast, upper.dropLast, ?_, ?_, ?_, ?_, ?_, hc0, hm, hlt⟩
  · rw [convex_hull_xy_eq, if_neg (by omega)]
  · rw [← hLlast]
    exact (List.dropLast_append_getLast hlne).symm
  · rw [← hUlast]
    exact (List.dropLast_append_getLast hune).symm
  · rw [dropLast_head? hL2, hLh]
  · rw [dropLast_head? hU2, hUh]

/-- The hull has no repeated vertices: the interiors of the two chains lie
strictly on opposite sides of the chord from `c0` to `m`, and the chain
endpoints are split between the two halves. -/
theorem hull_nodup (l : List (R × R)) : (convex_hull_xy l).Nodup := by
  by_cases hlen : 3 ≤ (sortPts l).length
  · obtain ⟨c0, m, A, B, hH, hLow, hUp, hAh, hBh, hc0, hm, hlt⟩ := hull_parts hlen
    have hne : sortPts l ≠ [] := by
      intro h
      rw [h] at hlen
      simp at hlen
    have hner : (sortPts l).reverse ≠ [] := by
      intro h
      exact hne (by simpa using congrArg List.reverse h)
    obtain ⟨hL1, hL2, hLmem, hLs, hLt, hLsup⟩ := buildChain_sound (sortPts_chain l) hne
    obtain ⟨hU1, hU2, hUmem, hUs, hUt, hUsup⟩ :=
      buildChain_sound_desc (sortPts_rev_desc l) hner
    have hLnd : (buildChain (sortPts l)).Nodup :=
      pairwise_ptLT_nodup (List.chain'_iff_pairwise.mp hLs)
    have hUnd : (buildChain ((sortPts l).reverse)).Nodup := by
      haveI : IsTrans (R × R) (fun a b => ptLT b a) :=
        ⟨fun _ _ _ h1 h2 => ptLT_trans h2 h1⟩
      have hpw := List.chain'_iff_pairwise.mp hUs
      exact hpw.imp (fun hab => fun he => ptLT_irrefl _ (he ▸ hab))
    rw [hLow] at hLnd
    rw [hUp] at hUnd
    have hAnd : A.Nodup := (List.nodup_append.mp hLnd).1
    have hBnd : B.Nodup := (List.nodup_append.mp hUnd).1
    have hmA : m ∉ A := by
      intro hmem
      exact (List.nodup_append.mp hLnd).2.2 hmem (by simp)
    have hc0B : c0 ∉ B := by
      intro hmem
      exact (List.nodup_append.mp hUnd).2.2 hmem (by simp)
    rw [hH, List.nodup_append]
    refine ⟨hAnd, hBnd, ?_⟩
    intro x hxA hxB
    have hxc0 : x ≠ c0 := fun he => hc0B (he ▸ hxB)
    have hxm : x ≠ m := fun he => hmA (he ▸ hxA)
    have hxLow : x ∈ buildChain (sortPts l) := by
      rw [hLow]
      exact List.mem_append.mpr (Or.inl hxA)
    have hxUp : x ∈ buildChain ((sortPts l).reverse) := by
      rw [hUp]
      exact List.mem_append.mpr (Or.inl hxB)
    have hpos : 0 < cross c0 x m := by
      refine chord hLt hLs ?_ ?_ x hxLow hxc0 hxm
      · rw [hL1, hc0]
      · rw [hL2, hm]
    have hneg : 0 < cross m x c0 := by
      have hsm : List.Chain' ptLT ((buildChain ((sortPts l).reverse)).map negPt) :=
        chainDESC_map_negPt.mpr hUs
      have htm : Turns ((buildChain ((sortPts l).reverse)).map negPt) :=
        turns_negPt.mpr hUt
      have hxm2 : negPt x ∈ (buildChain ((sortPts l).reverse)).map negPt :=
        List.mem_map_of_mem negPt hxUp
      have hinj : Function.Injective (negPt (R := R)) := fun a b h => by
        have h2 := congrArg negPt h
        rwa [negPt_invol, negPt_invol] at h2
      have hh1 : ((buildChain ((sortPts l).reverse)).map negPt).head? = some (negPt m) := by
        rw [List.head?_map, hU1, List.head?_reverse, hm]
        rfl
      have hh2 : ((buildChain ((sortPts l).reverse)).map negPt).getLast? =
          some (negPt c0) := by
        rw [List.getLast?_map, hU2, List.getLast?_reverse, hc0]
        rfl
      have hne1 : negPt x ≠ negPt m := fun h => hxm (hinj h)
      have hne2 : negPt x ≠ negPt c0 := fun h => hxc0 (hinj h)
      have := chord htm hsm hh1 hh2 (negPt x) hxm2 hne1 hne2
      rwa [cross_negPt] at this
    have : cross m x c0 = -cross c0 x m := by
      rw [cross_cyclic m x c0, cross_swap12]
    rw [this] at hneg
    linarith
  · rw [convex_hull_xy_eq, if_pos (by omega)]
    exact List.nodup_nil

/-- The hull, when nonempty, starts at the lexicographically least point of
the input. -/
theorem hull_head_min {l : List (R × R)} (hne : convex_hull_xy l ≠ []) :
    ∃ c0, (convex_hull_xy l).head? = some c0 ∧ c0 ∈ l ∧ ∀ p ∈ l, ptLE c0 p := by
  have hlen : 3 ≤ (sortPts l).length := by
    by_contra h
    exact hne (by rw [convex_hull_xy_eq, if_pos (by omega)])
  obtain ⟨c0, m, A, B, hH, hLow, hUp, hAh, hBh, hc0, hm, hlt⟩ := hull_parts hlen
  have hAne : A ≠ [] := by
    intro h
    rw [h] at hAh
    cases hAh
  refine ⟨c0, ?_, ?_, ?_⟩
  · rw [hH, List.head?_append_of_ne_nil _ hAne, hAh]
  · have : c0 ∈ sortPts l := by
      cases h : sortPts l with
      | nil => rw [h] at hc0; cases hc0
      | cons y t =>
        rw [h] at hc0
        injection hc0 with hc0
        rw [hc0]
        exact List.mem_cons_self c0 t
    exact mem_sortPts.mp this
  · cases h : sortPts l with
    | nil => rw [h] at hc0; cases hc0
    | cons y t =>
      rw [h] at hc0
      injection hc0 with hc0
      rw [hc0] at h
      exact sortPts_head_min h

end HullStructure

section CyclicAssembly

variable {R : Type} [LinearOrderedCommRing R]
variable {P : (R × R) → (R × R) → (R × R) → Prop}

theorem chain3_of_append_left :
    ∀ (l1 l2 : List (R × R)), Chain3 P (l1 ++ l2) → Chain3 P l1
  | [], _, _ => trivial
  | [_], _, _ => trivial
  | [_, _], _, _ => trivial
  | _ :: b :: c :: t, l2, h =>
    ⟨h.1, chain3_of_append_left (b :: c :: t) l2 h.2⟩

/-- Two consecutive supporting edges meeting at a common top vertex `m` turn
strictly left there, unless the whole point set is on one line. -/
theorem seam_max {T : List (R × R)} {a m u : R × R}
    (hsup1 : ∀ q ∈ T, 0 ≤ cross a m q) (hsup2 : ∀ q ∈ T, 0 ≤ cross m u q)
    (ham : ptLT a m) (hum : ptLT u m) (huT : u ∈ T)
    (hncol : ¬ ∀ q ∈ T, cross a m q = 0) : 0 < cross a m u := by
  rcases lt_or_eq_of_le (hsup1 u huT) with h | h
  · exact h
  · exfalso
    apply hncol
    intro q hq
    have h12 : cross2 (vsub m a) (vsub u m) = 0 := by
      rw [← cross_vec2]
      exact h.symm
    have e1 : cross a m q = cross2 (vsub m a) (vsub q m) := cross_vec2 a m q
    have e2 : cross m u q = cross2 (vsub u m) (vsub q m) := cross_vec m u q
    have hz := two_supports_line h12 (vecPos_vsub_of_ptLT ham) (vecNeg_vsub_of_ptLT hum)
      (by rw [← e1]; exact hsup1 q hq) (by rw [← e2]; exact hsup2 q hq)
    rw [e1, hz]

/-- Two consecutive supporting edges meeting at a common bottom vertex `c`
turn strictly left there, unless the whole point set is on one line. -/
theorem seam_min {T : List (R × R)} {b c h : R × R}
    (hsup1 : ∀ q ∈ T, 0 ≤ cross b c q) (hsup2 : ∀ q ∈ T, 0 ≤ cross c h q)
    (hcb : ptLT c b) (hch : ptLT c h) (hhT : h ∈ T)
    (hncol : ¬ ∀ q ∈ T, cross c h q = 0) : 0 < cross b c h := by
  rcases lt_or_eq_of_le (hsup1 h hhT) with hlt | heq
  · exact hlt
  · exfalso
    apply hncol
    intro q hq
    have h12 : cross2 (vsub h c) (vsub c b) = 0 := by
      have e : cross b c h = cross2 (vsub c b) (vsub h c) := cross_vec2 b c h
      rw [cross2_anti, ← e, ← heq, neg_zero]
    have e1 : cross c h q = cross2 (vsub h c) (vsub q c) := cross_vec c h q
    have e2 : cross b c q = cross2 (vsub c b) (vsub q c) := cross_vec2 b c q
    have hz := two_supports_line h12 (vecPos_vsub_of_ptLT hch) (vecNeg_vsub_of_ptLT hcb)
      (by rw [← e1]; exact hsup2 q hq) (by rw [← e2]; exact hsup1 q hq)
    rw [e1, hz]

/-- If the hull has at least 3 vertices, the point set cannot lie on one
line. -/
theorem hull_line_contra {l : List (R × R)} {X Y : R × R} (hXY : X ≠ Y)
    (h3 : 3 ≤ (convex_hull_xy l).length)
    (hzero : ∀ q ∈ sortPts l, cross X Y q = 0) : False := by
  have hlen : 3 ≤ (sortPts l).length := by
    by_contra h
    rw [convex_hull_xy_eq, if_pos (by omega)] at h3
    simp at h3
  have hcol : AllCollinear l := fun a ha b hb c hc =>
    line_collinear hXY (hzero a (mem_sortPts.mpr ha)) (hzero b (mem_sortPts.mpr hb))
      (hzero c (mem_sortPts.mpr hc))
  obtain ⟨m, M, _, _, hHull⟩ :=
    hull_of_collinear (by rw [← sortPts_length]; exact hlen) hcol
  rw [hHull] at h3
  simp at h3

/-- The hull output, when it has at least 3 vertices, is strictly convex in
the cyclic sense: every triple of cyclically consecutive vertices turns
left. -/
theorem hull_cyclic {l : List (R × R)} (h3 : 3 ≤ (convex_hull_xy l).length) :
    CyclicTurns (convex_hull_xy l) := by
  have hlen : 3 ≤ (sortPts l).length := by
    by_contra h
    rw [convex_hull_xy_eq, if_pos (by omega)] at h3
    simp at h3
  obtain ⟨c0, m, A, B, hH, hLow, hUp, hAh, hBh, hc0, hm, hlt⟩ := hull_parts hlen
  have hne : sortPts l ≠ [] := fun h => by rw [h] at hlen; simp at hlen
  have hner : (sortPts l).reverse ≠ [] := fun h =>
    hne (by simpa using congrArg List.reverse h)
  obtain ⟨hL1, hL2, hLmem, hLs, hLt, hLsup⟩ := buildChain_sound (sortPts_chain l) hne
  obtain ⟨hU1, hU2, hUmem, hUs, hUt, hUsup⟩ :=
    buildChain_sound_desc (sortPts_rev_desc l) hner
  have hAne : A ≠ [] := fun h => by rw [h] at hAh; cases hAh
  have hBne : B ≠ [] := fun h => by rw [h] at hBh; cases hBh
  obtain ⟨B', hB'⟩ : ∃ B', B = m :: B' := by
    cases B with
    | nil => exact absurd rfl hBne
    | cons y t =>
      injection hBh with hy
      exact ⟨t, by rw [hy]⟩
  obtain ⟨A', hA'⟩ : ∃ A', A = c0 :: A' := by
    cases A with
    | nil => exact absurd rfl hAne
    | cons y t =>
      injection hAh with hy
      exact ⟨t, by rw [hy]⟩
  obtain ⟨u1, V, hupper⟩ :
      ∃ u1 V, buildChain ((sortPts l).reverse) = m :: u1 :: V := by
    rw [hUp, hB']
    cases B' with
    | nil => exact ⟨c0, [], rfl⟩
    | cons z t => exact ⟨z, t ++ [c0], rfl⟩
  obtain ⟨h1, W, hlower, T3, hABeq⟩ :
      ∃ h1 W, buildChain (sortPts l) = c0 :: h1 :: W ∧
        ∃ T3, A ++ B = c0 :: h1 :: T3 := by
    rw [hLow, hA', hB']
    cases A' with
    | nil => exact ⟨m, [], rfl, B', rfl⟩
    | cons a1 t => exact ⟨a1, t ++ [m], rfl, t ++ m :: B', rfl⟩
  have hptc0h1 : ptLT c0 h1 := by
    rw [hlower] at hLs
    exact (List.chain'_cons.mp hLs).1
  have hsupc0h1 : ∀ q ∈ sortPts l, 0 ≤ cross c0 h1 q := by
    intro q hq
    have h := hLsup q hq
    rw [EdgeSupport, hlower] at h
    exact (List.chain'_cons.mp h).1
  have hptu1m : ptLT u1 m := by
    rw [hupper] at hUs
    exact (List.chain'_cons.mp hUs).1
  have hsupmu1 : ∀ q ∈ sortPts l, 0 ≤ cross m u1 q := by
    intro q hq
    have h := hUsup q (List.mem_reverse.mpr hq)
    rw [EdgeSupport, hupper] at h
    exact (List.chain'_cons.mp h).1
  have hAd : A.dropLast ++ [A.getLast hAne] = A := List.dropLast_append_getLast hAne
  have hlowsuf : [A.getLast hAne, m] <:+ buildChain (sortPts l) := by
    refine ⟨A.dropLast, ?_⟩
    rw [hLow]
    conv_rhs => rw [← hAd]
    rw [List.append_assoc]
    rfl
  have hptlastAm : ptLT (A.getLast hAne) m := by
    have h := hLs.suffix hlowsuf
    exact (List.chain'_cons.mp h).1
  have hsuplastAm : ∀ q ∈ sortPts l, 0 ≤ cross (A.getLast hAne) m q := by
    intro q hq
    have h := (hLsup q hq).suffix hlowsuf
    exact (List.chain'_cons.mp h).1
  have hBd : B.dropLast ++ [B.getLast hBne] = B := List.dropLast_append_getLast hBne
  have hupsuf : [B.getLast hBne, c0] <:+ buildChain ((sortPts l).reverse) := by
    refine ⟨B.dropLast, ?_⟩
    rw [hUp]
    conv_rhs => rw [← hBd]
    rw [List.append_assoc]
    rfl
  have hptc0lastB : ptLT c0 (B.getLast hBne) := by
    have h := hUs.suffix hupsuf
    exact (List.chain'_cons.mp h).1
  have hsuplastBc0 : ∀ q ∈ sortPts l, 0 ≤ cross (B.getLast hBne) c0 q := by
    intro q hq
    have h := (hUsup q (List.mem_reverse.mpr hq)).suffix hupsuf
    exact (List.chain'_cons.mp h).1
  have hu1T : u1 ∈ sortPts l := by
    have h : u1 ∈ buildChain ((sortPts l).reverse) := by
      rw [hupper]
      simp
    exact List.mem_reverse.mp (hUmem u1 h)
  have hh1T : h1 ∈ sortPts l := by
    have h : h1 ∈ buildChain (sortPts l) := by
      rw [hlower]
      simp
    exact hLmem h1 h
  have hncol1 : ¬ ∀ q ∈ sortPts l, cross (A.getLast hAne) m q = 0 := fun hall =>
    hull_line_contra (fun he => ptLT_irrefl _ (he ▸ hptlastAm)) h3 hall
  have hncol2 : ¬ ∀ q ∈ sortPts l, cross c0 h1 q = 0 := fun hall =>
    hull_line_contra (fun he => ptLT_irrefl _ (he ▸ hptc0h1)) h3 hall
  have hseam1 : 0 < cross (A.getLast hAne) m u1 :=
    seam_max hsuplastAm hsupmu1 hptlastAm hptu1m hu1T hncol1
  have hseam2 : 0 < cross (B.getLast hBne) c0 h1 :=
    seam_min hsuplastBc0 hsupc0h1 hptc0lastB hptc0h1 hh1T hncol2
  show Turns (convex_hull_xy l ++ (convex_hull_xy l).take 2)
  have htake : (convex_hull_xy l).take 2 = [c0, h1] := by
    rw [hH, hABeq]
    rfl
  rw [htake, hH, hABeq]
  have hassoc : (c0 :: h1 :: T3) ++ [c0, h1] = A ++ ((B ++ [c0]) ++ [h1]) := by
    rw [← hABeq]
    simp
  rw [hassoc]
  have hstep1 : Chain3 (fun a b c : R × R => 0 < cross a b c) ((B ++ [c0]) ++ [h1]) := by
    refine (chain3_snoc (B ++ [c0]) h1).mpr ⟨?_, ?_⟩
    · rw [← hUp]
      exact hUt
    · intro a b hab
      have hlt2 : lastTwo (B ++ [c0]) = some (B.getLast hBne, c0) := by
        conv_lhs => rw [← hBd]
        rw [List.append_assoc]
        exact lastTwo_append_pair B.dropLast _ _
      rw [hlt2] at hab
      injection hab with hab
      rw [show a = B.getLast hBne from (congrArg Prod.fst hab).symm,
        show b = c0 from (congrArg Prod.snd hab).symm]
      exact hseam2
  show Chain3 (fun a b c : R × R => 0 < cross a b c) (A ++ ((B ++ [c0]) ++ [h1]))
  refine chain3_append_of A ((B ++ [c0]) ++ [h1]) ?_ hstep1 ?_ ?_
  · have hTlow : Turns (A ++ [m]) := by
      rw [← hLow]
      exact hLt
    exact chain3_of_append_left A [m] hTlow
  · intro a b hab c hc
    have hch : ((B ++ [c0]) ++ [h1]).head? = some m := by
      rw [← hUp, hupper]
      rfl
    rw [hch] at hc
    injection hc with hc
    rw [← hc]
    have hTlow : Turns (A ++ [m]) := by
      rw [← hLow]
      exact hLt
    exact ((chain3_snoc A m).mp hTlow).2 a b hab
  · intro a ha b c t heq
    have hal : A.getLast? = some (A.getLast hAne) :=
      List.getLast?_eq_getLast_of_ne_nil hAne
    rw [hal] at ha
    injection ha with ha
    have hupeq : (B ++ [c0]) ++ [h1] = m :: u1 :: (V ++ [h1]) := by
      rw [← hUp, hupper]
      rfl
    rw [hupeq] at heq
    injection heq with hb heq
    injection heq with hc heq
    rw [← ha, ← hb, ← hc]
    exact hseam1

end CyclicAssembly

section Idempotence

variable {R : Type} [LinearOrderedCommRing R]

theorem map_negPt_negPt (l : List (R × R)) : (l.map negPt).map negPt = l := by
  rw [List.map_map]
  have h : (negPt ∘ negPt : R × R → R × R) = id := funext fun p => negPt_invol p
  rw [h, List.map_id]

theorem sortPts_head_eq_min {L : List (R × R)} {x : R × R} (hx : x ∈ L)
    (hmin : ∀ y ∈ L, ptLE x y) : (sortPts L).head? = some x := by
  cases h : sortPts L with
  | nil =>
    have hmem := mem_sortPts.mpr hx
    rw [h] at hmem
    cases hmem
  | cons y t =>
    have hy : ∀ p ∈ L, ptLE y p := sortPts_head_min h
    have hyL : y ∈ L := mem_sortPts.mp (by rw [h]; exact List.mem_cons_self y t)
    have he : y = x := ptLE_antisymm (hy x hx) (hmin y hyL)
    rw [he]
    rfl

theorem sortPts_getLast_eq_max {L : List (R × R)} {x : R × R} (hx : x ∈ L)
    (hmax : ∀ y ∈ L, ptLE y x) : (sortPts L).getLast? = some x := by
  have hne : sortPts L ≠ [] := fun h => by
    have hmem := mem_sortPts.mpr hx
    rw [h] at hmem
    cases hmem
  have h : (sortPts L).getLast? = some ((sortPts L).getLast hne) :=
    List.getLast?_eq_getLast_of_ne_nil hne
  have hyL : (sortPts L).getLast hne ∈ L := mem_sortPts.mp (List.getLast_mem hne)
  rw [h, ptLE_antisymm (hmax _ hyL) (sortPts_getLast_max h x hx)]

/-- Idempotence of the hull on inputs that are not all collinear: the hull
of the hull is the hull. Over the hull's own vertex set the two monotone
chains are reproduced exactly, by uniqueness of supported convex chains. -/
theorem hull_idem_core {l : List (R × R)} (hlen : 3 ≤ (sortPts l).length)
    (hncol : ¬ AllCollinear l) :
    convex_hull_xy (convex_hull_xy l) = convex_hull_xy l := by
  obtain ⟨c0, m, A, B, hH, hLow, hUp, hAh, hBh, hc0, hm, hlt⟩ := hull_parts hlen
  have hne : sortPts l ≠ [] := fun h => by rw [h] at hlen; simp at hlen
  have hner : (sortPts l).reverse ≠ [] := fun h =>
    hne (by simpa using congrArg List.reverse h)
  obtain ⟨hL1, hL2, hLmem, hLs, hLt, hLsup⟩ := buildChain_sound (sortPts_chain l) hne
  obtain ⟨hU1, hU2, hUmem, hUs, hUt, hUsup⟩ :=
    buildChain_sound_desc (sortPts_rev_desc l) hner
  have hAne : A ≠ [] := fun h => by rw [h] at hAh; cases hAh
  have hBne : B ≠ [] := fun h => by rw [h] at hBh; cases hBh
  obtain ⟨B', hB'⟩ : ∃ B', B = m :: B' := by
    cases B with
    | nil => exact absurd rfl hBne
    | cons y t =>
      injection hBh with hy
      exact ⟨t, by rw [hy]⟩
  obtain ⟨A', hA'⟩ : ∃ A', A = c0 :: A' := by
    cases A with
    | nil => exact absurd rfl hAne
    | cons y t =>
      injection hAh with hy
      exact ⟨t, by rw [hy]⟩
  have hc0m : c0 ≠ m := fun he => ptLT_irrefl _ (he ▸ hlt)
  have hHl : ∀ x ∈ A ++ B, x ∈ l := by
    rw [← hH]
    exact fun x hx => hull_subset hx
  have hLsubH : ∀ x ∈ buildChain (sortPts l), x ∈ A ++ B := by
    rw [hLow]
    intro x hx
    rcases List.mem_append.mp hx with h | h
    · exact List.mem_append.mpr (Or.inl h)
    · have he : x = m := by simpa using h
      exact List.mem_append.mpr (Or.inr (by rw [he, hB']; simp))
  have hUsubH : ∀ x ∈ buildChain ((sortPts l).reverse), x ∈ A ++ B := by
    rw [hUp]
    intro x hx
    rcases List.mem_append.mp hx with h | h
    · exact List.mem_append.mpr (Or.inr h)
    · have he : x = c0 := by simpa using h
      exact List.mem_append.mpr (Or.inl (by rw [he, hA']; simp))
  have hminH : ∀ x ∈ A ++ B, ptLE c0 x := by
    intro x hx
    cases h : sortPts l with
    | nil => rw [h] at hc0; cases hc0
    | cons y t =>
      rw [h] at hc0
      injection hc0 with hc0e
      rw [hc0e] at h
      exact sortPts_head_min h x (hHl x hx)
  have hmaxH : ∀ x ∈ A ++ B, ptLE x m := fun x hx => sortPts_getLast_max hm x (hHl x hx)
  have hc0H : c0 ∈ A ++ B := List.mem_append.mpr (Or.inl (by rw [hA']; simp))
  have hmH : m ∈ A ++ B := List.mem_append.mpr (Or.inr (by rw [hB']; simp))
  have hHnd : (A ++ B).Nodup := by
    rw [← hH]
    exact hull_nodup l
  have hlen3 : 3 ≤ (A ++ B).length := by
    by_contra hcon
    push_neg at hcon
    rw [hA', hB', List.length_append, List.length_cons, List.length_cons] at hcon
    have hA0 : A' = [] := List.length_eq_zero.mp (by omega)
    have hB0 : B' = [] := List.length_eq_zero.mp (by omega)
    have hlow2 : buildChain (sortPts l) = [c0, m] := by
      rw [hLow, hA', hA0]
      rfl
    have hup2 : buildChain ((sortPts l).reverse) = [m, c0] := by
      rw [hUp, hB', hB0]
      rfl
    have hzero : ∀ q ∈ sortPts l, cross c0 m q = 0 := by
      intro q hq
      have h1 := hLsup q hq
      rw [EdgeSupport, hlow2] at h1
      have h1' := (List.chain'_cons.mp h1).1
      have h2 := hUsup q (List.mem_reverse.mpr hq)
      rw [EdgeSupport, hup2] at h2
      have h2' := (List.chain'_cons.mp h2).1
      have hsw : cross m c0 q = -cross c0 m q := cross_swap12 m c0 q
      linarith
    exact hncol (fun a ha b hb c hc =>
      line_collinear hc0m (hzero a (mem_sortPts.mpr ha)) (hzero b (mem_sortPts.mpr hb))
        (hzero c (mem_sortPts.mpr hc)))
  have hT'len : 3 ≤ (sortPts (A ++ B)).length := by
    rw [sortPts_length, List.toFinset_card_of_nodup hHnd]
    exact hlen3
  have hT'ne : sortPts (A ++ B) ≠ [] := fun h => by rw [h] at hT'len; simp at hT'len
  have hT'h : (sortPts (A ++ B)).head? = some c0 := sortPts_head_eq_min hc0H hminH
  have hT'l : (sortPts (A ++ B)).getLast? = some m := sortPts_getLast_eq_max hmH hmaxH
  obtain ⟨hP1, hP2, hPmem, hPs, hPt, hPsup⟩ := buildChain_sound (sortPts_chain (A ++ B)) hT'ne
  have hEq1 : buildChain (sortPts (A ++ B)) = buildChain (sortPts l) := by
    refine chain_unique (buildChain (sortPts (A ++ B))) (buildChain (sortPts l))
      hPsup ?_ hPmem ?_ hPs hLs hPt hLt ?_ ?_
    · exact fun q hq => hLsup q (mem_sortPts.mpr (hHl q (mem_sortPts.mp hq)))
    · exact fun x hx => mem_sortPts.mpr (hLsubH x hx)
    · rw [hP1, hL1, hT'h, hc0]
    · rw [hP2, hL2, hT'l, hm]
  have hner' : (sortPts (A ++ B)).reverse ≠ [] := fun h =>
    hT'ne (by simpa using congrArg List.reverse h)
  have hT2s : List.Chain' ptLT (((sortPts (A ++ B)).reverse).map negPt) :=
    chainDESC_map_negPt.mpr (sortPts_rev_desc (A ++ B))
  have hT2ne : ((sortPts (A ++ B)).reverse).map negPt ≠ [] := fun h =>
    hner' (List.map_eq_nil_iff.mp h)
  obtain ⟨hQ1, hQ2, hQmem, hQs, hQt, hQsup⟩ := buildChain_sound hT2s hT2ne
  have hmemT2 : ∀ x, x ∈ ((sortPts (A ++ B)).reverse).map negPt ↔ negPt x ∈ A ++ B := by
    intro x
    rw [mem_map_negPt, List.mem_reverse, mem_sortPts]
  have hEq2 : buildChain ((sortPts (A ++ B)).reverse) =
      buildChain ((sortPts l).reverse) := by
    have hs : buildChain (((sortPts (A ++ B)).reverse).map negPt) =
        buildChain (((sortPts l).reverse).map negPt) := by
      refine chain_unique (buildChain (((sortPts (A ++ B)).reverse).map negPt))
        (buildChain (((sortPts l).reverse).map negPt)) hQsup ?_ hQmem ?_ hQs ?_ hQt ?_ ?_ ?_
      · intro q hq
        have hqH : negPt q ∈ A ++ B := (hmemT2 q).mp hq
        have hql : negPt q ∈ sortPts l := mem_sortPts.mpr (hHl _ hqH)
        rw [buildChain_negPt]
        have h := edgeSupport_negPt.mpr (hUsup (negPt q) (List.mem_reverse.mpr hql))
        rwa [negPt_invol] at h
      · intro x hx
        rw [buildChain_negPt] at hx
        have hxu : negPt x ∈ buildChain ((sortPts l).reverse) := mem_map_negPt.mp hx
        exact (hmemT2 x).mpr (hUsubH _ hxu)
      · rw [buildChain_negPt]
        exact chainDESC_map_negPt.mpr hUs
      · rw [buildChain_negPt]
        exact turns_negPt.mpr hUt
      · rw [hQ1, buildChain_negPt, List.head?_map, List.head?_map, List.head?_reverse,
          hT'l, hU1, List.head?_reverse, hm]
      · rw [hQ2, buildChain_negPt, List.getLast?_map, List.getLast?_map,
          List.getLast?_reverse, hT'h, hU2, List.getLast?_reverse, hc0]
    have h2 := congrArg (List.map negPt) hs
    rw [buildChain_negPt, buildChain_negPt, map_negPt_negPt, map_negPt_negPt] at h2
    exact h2
  rw [hH, convex_hull_xy_eq, if_neg (by omega), hEq1, hEq2, hLow, hUp,
    List.dropLast_concat, List.dropLast_concat]

end Idempotence

section TagsProof

theorem mem_uniqueFirst {α : Type} [DecidableEq α] :
    ∀ (seen l : List α) (x : α), x ∈ uniqueFirst seen l ↔ x ∈ l ∧ x ∉ seen
  | seen, [], x => by simp [uniqueFirst]
  | seen, a :: l, x => by
    rw [uniqueFirst]
    split
    · rename_i ha
      rw [mem_uniqueFirst seen l x]
      constructor
      · rintro ⟨h1, h2⟩
        exact ⟨List.mem_cons_of_mem a h1, h2⟩
      · rintro ⟨h1, h2⟩
        rcases List.mem_cons.mp h1 with he | hm
        · exact absurd (he ▸ ha) h2
        · exact ⟨hm, h2⟩
    · rename_i ha
      rw [List.mem_cons, mem_uniqueFirst (a :: seen) l x]
      constructor
      · rintro (he | ⟨h1, h2⟩)
        · exact ⟨he ▸ List.mem_cons_self a l, fun hx => ha (he ▸ hx)⟩
        · exact ⟨List.mem_cons_of_mem a h1, fun hx => h2 (List.mem_cons_of_mem a hx)⟩
      · rintro ⟨h1, h2⟩
        by_cases hxa : x = a
        · exact Or.inl hxa
        · rcases List.mem_cons.mp h1 with he | hm
          · exact absurd he hxa
          · refine Or.inr ⟨hm, fun hx => ?_⟩
            rcases List.mem_cons.mp hx with he | hs
            · exact hxa he
            · exact h2 hs

theorem uniqueFirst_pairwise_idx {α : Type} [DecidableEq α] :
    ∀ (seen l : List α),
      List.Pairwise (fun a b => l.indexOf a < l.indexOf b) (uniqueFirst seen l)
  | _, [] => by simp [uniqueFirst]
  | seen, a :: l => by
    rw [uniqueFirst]
    split
    · rename_i ha
      have ih := uniqueFirst_pairwise_idx seen l
      refine ih.imp_of_mem ?_
      intro x y hx hy hxy
      have hxne : a ≠ x := fun he => ((mem_uniqueFirst seen l x).mp hx).2 (he ▸ ha)
      have hyne : a ≠ y := fun he => ((mem_uniqueFirst seen l y).mp hy).2 (he ▸ ha)
      rw [List.indexOf_cons_ne _ hxne, List.indexOf_cons_ne _ hyne]
      omega
    · rename_i ha
      refine List.Pairwise.cons ?_ ?_
      · intro y hy
        have hyne : a ≠ y := fun he =>
          ((mem_uniqueFirst (a :: seen) l y).mp hy).2 (he ▸ List.mem_cons_self a seen)
        rw [List.indexOf_cons_self, List.indexOf_cons_ne _ hyne]
        omega
      · have ih := uniqueFirst_pairwise_idx (a :: seen) l
        refine ih.imp_of_mem ?_
        intro x y hx hy hxy
        have hxne : a ≠ x := fun he =>
          ((mem_uniqueFirst (a :: seen) l x).mp hx).2 (he ▸ List.mem_cons_self a seen)
        have hyne : a ≠ y := fun he =>
          ((mem_uniqueFirst (a :: seen) l y).mp hy).2 (he ▸ List.mem_cons_self a seen)
        rw [List.indexOf_cons_ne _ hxne, List.indexOf_cons_ne _ hyne]
        omega

theorem uniqueFirst_nodup {α : Type} [DecidableEq α] (seen l : List α) :
    (uniqueFirst seen l).Nodup :=
  (uniqueFirst_pairwise_idx seen l).imp (fun h he => by rw [he] at h; omega)

theorem insertByCount_perm (x : String × Nat) :
    ∀ (l : List (String × Nat)), List.Perm (insertByCount x l) (x :: l)
  | [] => List.Perm.refl _
  | y :: ys => by
    rw [insertByCount]
    split
    · exact List.Perm.refl _
    · exact (List.Perm.cons y (insertByCount_perm x ys)).trans (List.Perm.swap x y ys)

theorem sortByCountDesc_perm : ∀ (l : List (String × Nat)),
    List.Perm (sortByCountDesc l) l
  | [] => List.Perm.refl _
  | a :: l => by
    show List.Perm (insertByCount a (sortByCountDesc l)) (a :: l)
    exact (insertByCount_perm a _).trans (List.Perm.cons a (sortByCountDesc_perm l))

theorem insertByCount_pairwise {Q : (String × Nat) → (String × Nat) → Prop}
    {x : String × Nat} :
    ∀ {m : List (String × Nat)}, List.Pairwise (rankBefore Q) m → (∀ y ∈ m, Q x y) →
      List.Pairwise (rankBefore Q) (insertByCount x m)
  | [], _, _ => List.pairwise_singleton _ _
  | y :: ys, hp, hQ => by
    rw [insertByCount]
    split
    · rename_i hyx
      refine List.Pairwise.cons ?_ hp
      intro z hz
      rcases List.mem_cons.mp hz with he | hm
      · refine he ▸ ?_
        rcases lt_or_eq_of_le hyx with h | h
        · exact Or.inl h
        · exact Or.inr ⟨h, hQ y (List.mem_cons_self y ys)⟩
      · have hyz := (List.pairwise_cons.mp hp).1 z hm
        rcases hyz with h | ⟨he2, _⟩
        · exact Or.inl (lt_of_lt_of_le h hyx)
        · rcases lt_or_eq_of_le hyx with h2 | h2
          · exact Or.inl (he2 ▸ h2)
          · exact Or.inr ⟨he2.trans h2, hQ z (List.mem_cons_of_mem y hm)⟩
    · rename_i hyx
      push_neg at hyx
      obtain ⟨hp1, hp2⟩ := List.pairwise_cons.mp hp
      refine List.Pairwise.cons ?_
        (insertByCount_pairwise hp2 (fun z hz => hQ z (List.mem_cons_of_mem y hz)))
      intro z hz
      have hz2 : z ∈ x :: ys := (insertByCount_perm x ys).mem_iff.mp hz
      rcases List.mem_cons.mp hz2 with he | hm
      · exact Or.inl (he ▸ hyx)
      · exact hp1 z hm

theorem sortByCountDesc_pairwise {Q : (String × Nat) → (String × Nat) → Prop} :
    ∀ {l : List (String × Nat)}, List.Pairwise Q l →
      List.Pairwise (rankBefore Q) (sortByCountDesc l)
  | [], _ => List.Pairwise.nil
  | a :: l, hp => by
    obtain ⟨h1, h2⟩ := List.pairwise_cons.mp hp
    show List.Pairwise (rankBefore Q) (insertByCount a (sortByCountDesc l))
    exact insertByCount_pairwise (sortByCountDesc_pairwise h2)
      (fun y hy => h1 y ((sortByCountDesc_perm l).subset hy))

/-- Full behavioural characterization of the `Counter.most_common` model:
at most `n` entries, distinct keys drawn from the list with their exact
counts, ordered by decreasing count with ties broken by first occurrence,
containing every sufficiently frequent element, and exhaustive when fewer
than `n` entries are returned. -/
theorem most_common_spec (L : List String) (n : Nat) :
    ((most_common L n).map Prod.fst).Nodup ∧
    (most_common L n).length ≤ n ∧
    (∀ x ∈ most_common L n, x.1 ∈ L ∧ x.2 = L.count x.1) ∧
    List.Pairwise (rankBefore (fun a b => L.indexOf a.1 < L.indexOf b.1)) (most_common L n) ∧
    (∀ t ∈ L, t ∉ (most_common L n).map Prod.fst → ∀ x ∈ most_common L n,
      rankBefore (fun a b => L.indexOf a.1 < L.indexOf b.1) x (t, L.count t)) ∧
    ((most_common L n).length < n → ∀ t ∈ L, t ∈ (most_common L n).map Prod.fst) := by
  have hkeys := uniqueFirst_pairwise_idx ([] : List String) L
  have hKLpw : List.Pairwise (fun x y : String × Nat => L.indexOf x.1 < L.indexOf y.1)
      ((uniqueFirst [] L).map (fun k => (k, L.count k))) :=
    List.pairwise_map.mpr hkeys
  have hSLpw := sortByCountDesc_pairwise hKLpw
  have hperm := sortByCountDesc_perm ((uniqueFirst [] L).map (fun k => (k, L.count k)))
  have hmemKL : ∀ x : String × Nat,
      x ∈ (uniqueFirst [] L).map (fun k => (k, L.count k)) → x.1 ∈ L ∧ x.2 = L.count x.1 := by
    intro x hx
    rcases List.mem_map.mp hx with ⟨k, hk, he⟩
    have hkL : k ∈ L := ((mem_uniqueFirst [] L k).mp hk).1
    rw [← he]
    exact ⟨hkL, rfl⟩
  have hmemSL : ∀ x ∈ sortByCountDesc ((uniqueFirst [] L).map (fun k => (k, L.count k))),
      x.1 ∈ L ∧ x.2 = L.count x.1 := fun x hx => hmemKL x (hperm.subset hx)
  have hfst : ((uniqueFirst [] L).map (fun k => (k, L.count k))).map Prod.fst
      = uniqueFirst [] L := by
    rw [List.map_map]
    exact List.map_id _
  have hndSL : ((sortByCountDesc ((uniqueFirst [] L).map (fun k => (k, L.count k)))).map
      Prod.fst).Nodup := by
    refine (List.Perm.nodup_iff (List.Perm.map Prod.fst hperm)).mpr ?_
    rw [hfst]
    exact uniqueFirst_nodup [] L
  have hmc : most_common L n
      = (sortByCountDesc ((uniqueFirst [] L).map (fun k => (k, L.count k)))).take n := rfl
  have hsplit := List.take_append_drop n
    (sortByCountDesc ((uniqueFirst [] L).map (fun k => (k, L.count k))))
  have hSLpw2 := hSLpw
  rw [← hsplit] at hSLpw2
  obtain ⟨htakepw, hdroppw, hcross⟩ := List.pairwise_append.mp hSLpw2
  refine ⟨?_, ?_, ?_, ?_, ?_, ?_⟩
  · rw [hmc, List.map_take]
    exact hndSL.sublist (List.take_sublist n _)
  · rw [hmc, List.length_take]
    omega
  · intro x hx
    exact hmemSL x (by rw [← hsplit]; exact List.mem_append.mpr (Or.inl (hmc ▸ hx)))
  · rw [hmc]
    exact htakepw
  · intro t htL hnot x hx
    have htk : (t, L.count t) ∈ (uniqueFirst [] L).map (fun k => (k, L.count k)) :=
      List.mem_map_of_mem _ ((mem_uniqueFirst [] L t).mpr ⟨htL, List.not_mem_nil t⟩)
    have htSL : (t, L.count t)
        ∈ sortByCountDesc ((uniqueFirst [] L).map (fun k => (k, L.count k))) :=
      hperm.mem_iff.mpr htk
    rw [← hsplit] at htSL
    rcases List.mem_append.mp htSL with hin | hin
    · exact absurd (List.mem_map_of_mem Prod.fst (hmc ▸ hin)) hnot
    · exact hcross x (hmc ▸ hx) _ hin
  · intro hlt t htL
    rw [hmc, List.length_take] at hlt
    have hle : (sortByCountDesc ((uniqueFirst [] L).map (fun k => (k, L.count k)))).length
        ≤ n := by omega
    have htk : (t, L.count t) ∈ (uniqueFirst [] L).map (fun k => (k, L.count k)) :=
      List.mem_map_of_mem _ ((mem_uniqueFirst [] L t).mpr ⟨htL, List.not_mem_nil t⟩)
    have htSL := hperm.mem_iff.mpr htk
    rw [hmc, List.take_of_length_le hle]
    exact List.mem_map_of_mem Prod.fst htSL

theorem mem_clusterTags_not_deleted {sample : List Row} {D : Finset String} {cid : Int}
    {t : String} (h : t ∈ clusterTags sample D cid) : t ∉ D := by
  rw [clusterTags] at h
  rcases List.mem_flatten.mp h with ⟨lst, hlst, htl⟩
  rcases List.mem_map.mp hlst with ⟨r, _, he⟩
  rw [← he, rowTags] at htl
  split at htl
  · have := List.mem_filter.mp htl
    simpa using this.2
  · cases htl

end TagsProof

section DegenerateHelpers

variable {R : Type} [LinearOrderedCommRing R]

theorem card_lt_collinear {l : List (R × R)} (h : l.toFinset.card < 3) :
    AllCollinear l := by
  intro a ha b hb c hc
  by_cases hab : a = b
  · rw [hab]
    exact cross_self12 b c
  by_cases hac : a = c
  · rw [← hac]
    exact cross_self13 a b
  by_cases hbc : b = c
  · rw [← hbc]
    exact cross_self23 a b
  exfalso
  have hsub : ({a, b, c} : Finset (R × R)) ⊆ l.toFinset := by
    intro x hx
    simp only [Finset.mem_insert, Finset.mem_singleton] at hx
    rcases hx with h1 | h1 | h1 <;> rw [h1] <;> exact List.mem_toFinset.mpr (by assumption)
  have hcard : ({a, b, c} : Finset (R × R)).card = 3 := by
    rw [Finset.card_insert_of_not_mem (by simp [hab, hac]),
      Finset.card_insert_of_not_mem (by simp [hbc]), Finset.card_singleton]
  have := Finset.card_le_card hsub
  omega

end DegenerateHelpers

section Claims

variable {R : Type} [LinearOrderedCommRing R]

/-- C1: for every input list whose set of distinct points has fewer than 3
elements, `convex_hull_xy` returns the empty list. -/
theorem C1_degenerate_hull_empty (l : List (R × R)) (h : l.toFinset.card < 3) :
    convex_hull_xy l = [] :=
  hull_empty_of_card_lt l h

theorem C1_witness :
    ([((0:ℤ), 0), (1, 1), (0, 0)] : List (ℤ × ℤ)).toFinset.card < 3 ∧
      convex_hull_xy [((0:ℤ), 0), (1, 1), (0, 0)] = [] :=
  ⟨by decide, C1_degenerate_hull_empty [((0:ℤ), 0), (1, 1), (0, 0)] (by decide)⟩

/-- C2: on at least 3 distinct, all-collinear points the hull is exactly the
two extreme endpoints of the segment: every input point lies between them in
the lexicographic order along the line, and all interior points are pruned. -/
theorem C2_collinear_two_endpoints (l : List (R × R)) (hcard : 3 ≤ l.toFinset.card)
    (hcol : AllCollinear l) :
    ∃ m M, convex_hull_xy l = [m, M] ∧ m ∈ l ∧ M ∈ l ∧ m ≠ M ∧
      ∀ p ∈ l, ptLE m p ∧ ptLE p M ∧ cross m M p = 0 := by
  obtain ⟨m, M, hm, hM, hHull⟩ := hull_of_collinear hcard hcol
  have hlen : 3 ≤ (sortPts l).length := by
    rw [sortPts_length]
    exact hcard
  have hmM : ptLT m M := sorted_head_lt_getLast (sortPts_chain l) (by omega) hm hM
  have hmem : m ∈ l := by
    cases h : sortPts l with
    | nil => rw [h] at hm; cases hm
    | cons y t =>
      rw [h] at hm
      injection hm with hme
      refine mem_sortPts.mp ?_
      rw [h, ← hme]
      exact List.mem_cons_self y t
  have hMmem : M ∈ l := mem_sortPts.mp (mem_of_getLast?_eq hM)
  refine ⟨m, M, hHull, hmem, hMmem, fun he => ptLT_irrefl _ (he ▸ hmM), ?_⟩
  intro p hp
  refine ⟨?_, sortPts_getLast_max hM p hp, hcol m hmem M hMmem p hp⟩
  cases h : sortPts l with
  | nil => rw [h] at hm; cases hm
  | cons y t =>
    rw [h] at hm
    injection hm with hme
    rw [hme] at h
    exact sortPts_head_min h p hp

theorem C2_witness :
    3 ≤ ([((0:ℤ), 0), (1, 0), (2, 0)] : List (ℤ × ℤ)).toFinset.card ∧
      AllCollinear ([((0:ℤ), 0), (1, 0), (2, 0)] : List (ℤ × ℤ)) ∧
      (∃ m M, convex_hull_xy [((0:ℤ), 0), (1, 0), (2, 0)] = [m, M] ∧
        m ∈ ([((0:ℤ), 0), (1, 0), (2, 0)] : List (ℤ × ℤ)) ∧
        M ∈ ([((0:ℤ), 0), (1, 0), (2, 0)] : List (ℤ × ℤ)) ∧ m ≠ M ∧
        ∀ p ∈ ([((0:ℤ), 0), (1, 0), (2, 0)] : List (ℤ × ℤ)),
          ptLE m p ∧ ptLE p M ∧ cross m M p = 0) ∧
      convex_hull_xy [((0:ℤ), 0), (1, 0), (2, 0)] = [(0, 0), (2, 0)] :=
  ⟨by decide, by decide,
    C2_collinear_two_endpoints [((0:ℤ), 0), (1, 0), (2, 0)] (by decide) (by decide),
    by decide⟩

/-- C3 counterexample: for the collinear input `[(0,0), (1,0), (2,0)]` the
hull is the two-point list `[(0,0), (2,0)]`, whose own hull is `[]`, so
`convex_hull_xy` is not idempotent on all inputs. -/
theorem C3_counterexample :
    convex_hull_xy (convex_hull_xy [((0:ℤ), 0), (1, 0), (2, 0)]) ≠
      convex_hull_xy [((0:ℤ), 0), (1, 0), (2, 0)] := by
  decide

/-- C3 (amended): `convex_hull_xy` is idempotent on every input that does not
have at least 3 distinct points all on one line (on those the hull is a
2-point segment whose own hull is empty). -/
theorem C3_hull_idempotent_amended (l : List (R × R))
    (h : l.toFinset.card < 3 ∨ ¬ AllCollinear l) :
    convex_hull_xy (convex_hull_xy l) = convex_hull_xy l := by
  rcases h with h | h
  · rw [hull_empty_of_card_lt l h]
    exact hull_empty_of_card_lt [] (by simp)
  · have hcard : 3 ≤ l.toFinset.card := by
      by_contra hc
      exact h (card_lt_collinear (by omega))
    exact hull_idem_core (by rw [sortPts_length]; exact hcard) h

theorem C3_witness :
    (([((0:ℤ), 0), (1, 0), (1, 1), (0, 1)] : List (ℤ × ℤ)).toFinset.card < 3 ∨
      ¬ AllCollinear ([((0:ℤ), 0), (1, 0), (1, 1), (0, 1)] : List (ℤ × ℤ))) ∧
      convex_hull_xy (convex_hull_xy [((0:ℤ), 0), (1, 0), (1, 1), (0, 1)]) =
        convex_hull_xy [((0:ℤ), 0), (1, 0), (1, 1), (0, 1)] :=
  ⟨Or.inr (by decide),
    C3_hull_idempotent_amended [((0:ℤ), 0), (1, 0), (1, 1), (0, 1)] (Or.inr (by decide))⟩

/-- C4: every point of the hull output is an element of the input list; no
coordinate pair is synthesized. -/
theorem C4_hull_subset_of_input (l : List (R × R)) (p : R × R)
    (h : p ∈ convex_hull_xy l) : p ∈ l :=
  hull_subset h

theorem C4_witness :
    ((0:ℤ), (0:ℤ)) ∈ convex_hull_xy [((0:ℤ), 0), (1, 0), (1, 1)] ∧
      ((0:ℤ), (0:ℤ)) ∈ ([((0:ℤ), 0), (1, 0), (1, 1)] : List (ℤ × ℤ)) :=
  ⟨by decide, C4_hull_subset_of_input [((0:ℤ), 0), (1, 0), (1, 1)] (0, 0) (by decide)⟩

/-- C5 counterexample: the collinear input `[(0,0), (1,0), (2,0)]` has the
non-empty hull `[(0,0), (2,0)]`, but the cyclically consecutive triples of a
2-element output degenerate and have zero cross product, so not every
non-empty output satisfies the strict cyclic left-turn property. -/
theorem C5_counterexample :
    convex_hull_xy [((0:ℤ), 0), (1, 0), (2, 0)] ≠ [] ∧
      ¬ CyclicTurns (convex_hull_xy [((0:ℤ), 0), (1, 0), (2, 0)]) := by
  decide

/-- C5 (amended): whenever the hull output has at least 3 vertices, it is in
counter-clockwise order with every cyclically consecutive triple a strict
left turn (so no output vertex lies on the segment of its neighbours). -/
theorem C5_cyclic_left_turns_amended (l : List (R × R))
    (h3 : 3 ≤ (convex_hull_xy l).length) : CyclicTurns (convex_hull_xy l) :=
  hull_cyclic h3

theorem C5_witness :
    3 ≤ (convex_hull_xy [((0:ℤ), 0), (1, 0), (1, 1), (0, 1)]).length ∧
      CyclicTurns (convex_hull_xy [((0:ℤ), 0), (1, 0), (1, 1), (0, 1)]) :=
  ⟨by decide, C5_cyclic_left_turns_amended [((0:ℤ), 0), (1, 0), (1, 1), (0, 1)] (by decide)⟩

/-- C6: the hull is invariant under permutation of the input list — in fact
the output sequences are identical, not merely rotations. -/
theorem C6_hull_permutation_invariant (l l2 : List (R × R)) (h : List.Perm l l2) :
    convex_hull_xy l = convex_hull_xy l2 :=
  hull_eq_of_perm h

theorem C6_witness :
    List.Perm ([((0:ℤ), 0), (1, 0), (1, 1)] : List (ℤ × ℤ)) [(1, 1), (0, 0), (1, 0)] ∧
      convex_hull_xy ([((0:ℤ), 0), (1, 0), (1, 1)] : List (ℤ × ℤ)) =
        convex_hull_xy [(1, 1), (0, 0), (1, 0)] :=
  ⟨by decide, C6_hull_permutation_invariant _ _ (by decide)⟩

/-- C8: `convex_hull_xy` is total — the step-by-step error-passing variant of
the computation (in which every list indexing is guarded) always returns
`Except.ok` with the plain result, never an exception value. -/
theorem C8_hull_total_no_exception (l : List (R × R)) :
    convex_hull_xyE l = Except.ok (convex_hull_xy l) :=
  convex_hull_xyE_eq_ok l

/-- C9: a non-empty hull starts at the lexicographically smallest input
point, and the output is fully determined by the input point set. -/
theorem C9_hull_starts_at_lex_min (l : List (R × R)) (hne : convex_hull_xy l ≠ []) :
    (∃ c0, (convex_hull_xy l).head? = some c0 ∧ c0 ∈ l ∧ ∀ p ∈ l, ptLE c0 p) ∧
      ∀ l2, l.toFinset = l2.toFinset → convex_hull_xy l = convex_hull_xy l2 :=
  ⟨hull_head_min hne, fun _ h => hull_eq_of_toFinset_eq h⟩

theorem C9_witness :
    convex_hull_xy [((0:ℤ), 0), (1, 0), (1, 1), (0, 1)] ≠ [] ∧
      ((∃ c0, (convex_hull_xy [((0:ℤ), 0), (1, 0), (1, 1), (0, 1)]).head? = some c0 ∧
          c0 ∈ ([((0:ℤ), 0), (1, 0), (1, 1), (0, 1)] : List (ℤ × ℤ)) ∧
          ∀ p ∈ ([((0:ℤ), 0), (1, 0), (1, 1), (0, 1)] : List (ℤ × ℤ)), ptLE c0 p) ∧
        ∀ l2, ([((0:ℤ), 0), (1, 0), (1, 1), (0, 1)] : List (ℤ × ℤ)).toFinset = l2.toFinset →
          convex_hull_xy [((0:ℤ), 0), (1, 0), (1, 1), (0, 1)] = convex_hull_xy l2) :=
  ⟨by decide, C9_hull_starts_at_lex_min [((0:ℤ), 0), (1, 0), (1, 1), (0, 1)] (by decide)⟩

/-- C10: the hull output never contains a repeated vertex: the two
concatenated chain prefixes are disjoint. -/
theorem C10_hull_no_duplicates (l : List (R × R)) : (convex_hull_xy l).Nodup :=
  hull_nodup l

end Claims

section ClaimTags

/-- C7: `get_cluster_top_tags` covers exactly the clusters other than `-1`
(in first-encounter order), and for each such cluster returns at most `N`
distinct tags of that cluster after exclusion, with their multiplicities
ordered by decreasing frequency, ties broken by first-encounter order, no
omitted tag ranking above a returned one, and exhaustively when fewer than
`N` tags are returned. -/
theorem C7_top_tags_correct (sample : List Row) (D : Finset String) (n : Nat) :
    ((get_cluster_top_tags sample D n).map Prod.fst =
      (uniqueFirst [] (sample.map (fun r => r.cluster))).filter (fun cid => ¬ cid = -1)) ∧
    ∀ cid tags, (cid, tags) ∈ get_cluster_top_tags sample D n →
      cid ≠ -1 ∧
      tags.length ≤ n ∧
      tags.Nodup ∧
      (∀ t ∈ tags, t ∈ clusterTags sample D cid ∧ t ∉ D) ∧
      List.Pairwise (fun a b =>
        (clusterTags sample D cid).count b < (clusterTags sample D cid).count a ∨
        ((clusterTags sample D cid).count b = (clusterTags sample D cid).count a ∧
          (clusterTags sample D cid).indexOf a < (clusterTags sample D cid).indexOf b)) tags ∧
      (∀ t ∈ clusterTags sample D cid, t ∉ tags → ∀ a ∈ tags,
        (clusterTags sample D cid).count t < (clusterTags sample D cid).count a ∨
        ((clusterTags sample D cid).count t = (clusterTags sample D cid).count a ∧
          (clusterTags sample D cid).indexOf a < (clusterTags sample D cid).indexOf t)) ∧
      (tags.length < n → ∀ t ∈ clusterTags sample D cid, t ∈ tags) := by
  constructor
  · rw [get_cluster_top_tags, List.map_map]
    refine (List.map_congr_left ?_).trans (List.map_id _)
    intro cid _
    show (if clusterTags sample D cid ≠ [] then
        (cid, (most_common (clusterTags sample D cid) n).map (fun tc => tc.1))
      else (cid, [])).1 = id cid
    split <;> rfl
  · intro cid tags hmem
    rw [get_cluster_top_tags] at hmem
    rcases List.mem_map.mp hmem with ⟨cid', hcid', he⟩
    have he2 : (if clusterTags sample D cid' ≠ [] then
        (cid', (most_common (clusterTags sample D cid') n).map (fun tc => tc.1))
      else (cid', ([] : List String))) = (cid, tags) := he
    have hcc : cid' = cid := by
      have h1 := congrArg Prod.fst he2
      rw [show (if clusterTags sample D cid' ≠ [] then
          (cid', (most_common (clusterTags sample D cid') n).map (fun tc => tc.1))
        else (cid', ([] : List String))).1 = cid' from by split <;> rfl] at h1
      exact h1
    rw [hcc] at he2
    have hne1 : cid ≠ -1 := by
      have h2 := (List.mem_filter.mp hcid').2
      rw [hcc] at h2
      simpa using h2
    by_cases hCT : clusterTags sample D cid = []
    · have htags : tags = [] := by
        rw [if_neg (by simpa using hCT)] at he2
        exact (congrArg Prod.snd he2).symm
      rw [htags]
      refine ⟨hne1, by simp, List.nodup_nil, fun t ht => absurd ht (List.not_mem_nil t),
        List.Pairwise.nil, ?_, ?_⟩
      · intro t htC
        rw [hCT] at htC
        exact absurd htC (List.not_mem_nil t)
      · intro _ t htC
        rw [hCT] at htC
        exact absurd htC (List.not_mem_nil t)
    · have htags : tags = (most_common (clusterTags sample D cid) n).map (fun tc => tc.1) := by
        rw [if_pos hCT] at he2
        exact (congrArg Prod.snd he2).symm
      obtain ⟨hnd, hlen, hchar, hpw, hcompl, hfew⟩ :=
        most_common_spec (clusterTags sample D cid) n
      refine ⟨hne1, ?_, ?_, ?_, ?_, ?_, ?_⟩
      · rw [htags, List.length_map]
        exact hlen
      · rw [htags]
        exact hnd
      · intro t ht
        rw [htags] at ht
        rcases List.mem_map.mp ht with ⟨x, hx, hxe⟩
        have hx1 := (hchar x hx).1
        rw [← hxe]
        exact ⟨hx1, mem_clusterTags_not_deleted hx1⟩
      · rw [htags]
        refine List.pairwise_map.mpr ?_
        refine hpw.imp_of_mem ?_
        intro x y hx hy hxy
        obtain ⟨_, hx2⟩ := hchar x hx
        obtain ⟨_, hy2⟩ := hchar y hy
        rcases hxy with h | ⟨h, hidx⟩
        · exact Or.inl (by rw [← hx2, ← hy2]; exact h)
        · exact Or.inr ⟨by rw [← hx2, ← hy2]; exact h, hidx⟩
      · intro t htC hnot a ha
        rw [htags] at hnot ha
        rcases List.mem_map.mp ha with ⟨x, hx, hxe⟩
        have hr := hcompl t htC hnot x hx
        obtain ⟨_, hx2⟩ := hchar x hx
        rcases hr with h | ⟨h, hidx⟩
        · refine Or.inl ?_
          rw [← hxe, ← hx2]
          exact h
        · refine Or.inr ⟨?_, ?_⟩
          · rw [← hxe, ← hx2]
            exact h
          · rw [← hxe]
            exact hidx
      · intro hlt t htC
        rw [htags, List.length_map] at hlt
        rw [htags]
        exact hfew hlt t htC

end ClaimTags
